import Mathlib

/-!
Verification development for the Shortest-Path-Visualizer trace engine
(`src/services/dijkstra.ts`, `src/types.ts`, `src/constants.ts`).

The engine is embedded shallowly: JavaScript numbers holding weights and path
lengths are modelled as integers (`WithTop ℤ` for distances, with `⊤` playing
the role of the `Infinity` sentinel) — the engine's only arithmetic is
addition and order comparison, and every concrete input in the repository has
integral weights, so nothing in the engine depends on fractional values.  The
mutable `Record<string, AlgorithmNodeState>` is modelled as an association
list updated functionally, and the steps array pushed to by `snapshot` is the
returned list.  Reading a key that is absent from the record (which throws a
`TypeError` at runtime in JavaScript) is modelled by a default label state;
all theorems about executions only ever read keys that were initialized.

One deliberate model boundary: the source's `snapshot` deep-copies the record
with `JSON.parse(JSON.stringify(nodeStates))` (dijkstra.ts line 33), and
`JSON.stringify` serializes the JS number `Infinity` as `null`, so the
snapshot actually stored in a Step holds `null` where the working map holds
`Infinity`.  A Step's `nodeStates` in this embedding is the working map at
snapshot time (the pre-copy state); the distance field the program really
stores is `storedDistance` of it.  Statuses, parents, the permanent list and
every finite distance are fixed by the round-trip, so theorems inspecting
only those read the stored snapshot faithfully; `C2_json_null_bug` exhibits
the one place where the two differ.
-/

namespace SPV

/-- `NodeStatus` from src/types.ts. -/
inductive NodeStatus
  | unvisited
  | temporary
  | permanent
deriving DecidableEq

/-- `Node` from src/types.ts (`x`/`y` are opaque display coordinates). -/
structure Node where
  id : String
  x : ℤ
  y : ℤ
  label : Option String
deriving DecidableEq

/-- `Edge` from src/types.ts. -/
structure Edge where
  id : String
  source : String
  target : String
  weight : ℤ
deriving DecidableEq

/-- `AlgorithmNodeState` from src/types.ts; `distance` is a JS number that can
be `Infinity`, modelled as `WithTop ℤ`. -/
structure AlgorithmNodeState where
  distance : WithTop ℤ
  parent : Option String
  status : NodeStatus
deriving DecidableEq

/-- `AlgorithmStep` from src/types.ts. -/
structure AlgorithmStep where
  stepIndex : Nat
  description : String
  activeNodeId : Option String
  checkingEdgeId : Option String
  nodeStates : List (String × AlgorithmNodeState)
  permanentNodes : List String
deriving DecidableEq

/-- The working label-state record: keys in insertion order, as a JS object. -/
abbrev StMap := List (String × AlgorithmNodeState)

/-- Label state used when a key is absent (JS would throw; never reached on
initialized keys). -/
def defaultState : AlgorithmNodeState :=
  { distance := ⊤, parent := none, status := NodeStatus.unvisited }

/-- First-match association lookup, as JS property access on the record. -/
def lookupSt : StMap → String → Option AlgorithmNodeState
  | [], _ => none
  | (k, v) :: t, id => if k = id then some v else lookupSt t id

/-- Total read of the record (see `defaultState`). -/
def getSt (σ : StMap) (id : String) : AlgorithmNodeState :=
  (lookupSt σ id).getD defaultState

/-- In-place overwrite of an existing key (JS `nodeStates[id].field = v`);
a no-op when the key is absent. -/
def updateSt : StMap → String → AlgorithmNodeState → StMap
  | [], _, _ => []
  | (k, v) :: t, id, s => if k = id then (k, s) :: t else (k, v) :: updateSt t id s

/-- JS `nodeStates[id] = s` during initialization: overwrite in place if the
key exists, else append (object insertion order). -/
def insertSt : StMap → String → AlgorithmNodeState → StMap
  | [], id, s => [(id, s)]
  | (k, v) :: t, id, s => if k = id then (k, s) :: t else (k, v) :: insertSt t id s

/-- The per-node initial label from the `nodes.forEach` initializer. -/
def initState (startNodeId id : String) : AlgorithmNodeState :=
  { distance := if id = startNodeId then (0 : WithTop ℤ) else ⊤,
    parent := if id = startNodeId then some startNodeId else none,
    status := if id = startNodeId then NodeStatus.temporary else NodeStatus.unvisited }

/-- The whole initial record built by `nodes.forEach`. -/
def initStates (nodes : List Node) (startNodeId : String) : StMap :=
  nodes.foldl (fun σ n => insertSt σ n.id (initState startNodeId n.id)) []

/-- JS number formatting for the finite numbers that appear in descriptions. -/
def fmtNum (q : ℤ) : String :=
  toString q

/-- JS template interpolation of a distance (`Infinity` for the sentinel). -/
def fmtDist (d : WithTop ℤ) : String :=
  if d = ⊤ then "Infinity" else fmtNum (d.untop' 0)

/-- The distance field a Step actually stores after the source's
`JSON.parse(JSON.stringify(...))` round-trip (dijkstra.ts line 33):
`JSON.stringify` has no representation for `Infinity` and serializes it as
`null` (here `none`); finite numbers survive unchanged (`some`). -/
def storedDistance (d : WithTop ℤ) : Option ℤ :=
  if d = ⊤ then none else some (d.untop' 0)

/-- `nodes.find(n => n.id === u)?.label` interpolated into a template string. -/
def labelOf (nodes : List Node) (u : String) : String :=
  (((nodes.find? (fun n => n.id = u)).bind (fun n => n.label)).getD "undefined")

/-- The `snapshot` helper: build one `AlgorithmStep` from the current state.
The stored `nodeStates` here is the working map at snapshot time; the
source's `JSON.parse(JSON.stringify(nodeStates))` copy additionally turns
every `Infinity` distance into `null` (see `storedDistance`), leaving
statuses, parents and finite distances unchanged. -/
def mkStep (idx : Nat) (desc : String) (active check : Option String)
    (σ : StMap) (perms : List String) : AlgorithmStep :=
  { stepIndex := idx, description := desc, activeNodeId := active,
    checkingEdgeId := check, nodeStates := σ, permanentNodes := perms }

def initDesc : String := "初始化：设定起点标号 [0, 起点]，其他节点为 [∞, -]。"

def termDesc : String := "没有更多可达的临时节点。算法结束。"

def finDesc (nodes : List Node) (u : String) (σ : StMap) : String :=
  "选定临时标号最小的节点 " ++ labelOf nodes u ++ " (d=" ++
    fmtDist (getSt σ u).distance ++ ")，将其标记为 P (永久标号)。"

def arrDesc (nodes : List Node) (u : String) : String :=
  "已到达终点 " ++ labelOf nodes u ++ "。最短路径找到。"

def updDesc (nodes : List Node) (u targetId : String)
    (currentDist newDist : WithTop ℤ) : String :=
  "更新节点 " ++ labelOf nodes targetId ++ " 的标号：由 " ++
    (if currentDist = ⊤ then "∞" else fmtNum (currentDist.untop' 0)) ++
    " 更新为 " ++ fmtDist newDist ++ " (来自 " ++ labelOf nodes u ++ ")。"

def noUpdDesc (nodes : List Node) (targetId : String)
    (currentDist newDist : WithTop ℤ) : String :=
  "检查节点 " ++ labelOf nodes targetId ++ "：现有距离 " ++ fmtDist currentDist ++
    " <= 新路径 " ++ fmtDist newDist ++ "，不更新。"

/-- One comparison of the selection scan (body of the `for (const node of
nodes)` loop computing `minDistance`/`u`). -/
def selStep (σ : StMap) (acc : WithTop ℤ × Option String) (n : Node) :
    WithTop ℤ × Option String :=
  if (getSt σ n.id).status ≠ NodeStatus.permanent ∧ (getSt σ n.id).distance < acc.1
  then ((getSt σ n.id).distance, some n.id) else acc

/-- The selection scan: smallest current distance among non-permanent nodes,
first node in list order winning ties (strict `<` against the accumulator). -/
def selectMin (nodes : List Node) (σ : StMap) : WithTop ℤ × Option String :=
  nodes.foldl (selStep σ) (⊤, none)

/-- Marking the selected node permanent (`nodeStates[u].status = 'permanent'`). -/
def finalizeState (σ : StMap) (u : String) : StMap :=
  updateSt σ u { getSt σ u with status := NodeStatus.permanent }

/-- The neighbor-update loop (`for (const edge of neighbors)`), threading the
record and emitting one step per examined edge.  The edge list argument is the
already-filtered `neighbors` array. -/
def relaxEdges (nodes : List Node) (u : String) :
    StMap → List String → Nat → List Edge → StMap × List AlgorithmStep
  | σ, _, _, [] => (σ, [])
  | σ, perms, idx, e :: rest =>
    let targetId := if e.source = u then e.target else e.source
    if (getSt σ targetId).status ≠ NodeStatus.permanent then
      let newDist := (getSt σ u).distance + (e.weight : WithTop ℤ)
      let currentDist := (getSt σ targetId).distance
      if newDist < currentDist then
        let σ2 := updateSt σ targetId
          { distance := newDist, parent := some u, status := NodeStatus.temporary }
        let r := relaxEdges nodes u σ2 perms (idx + 1) rest
        (r.1, mkStep idx (updDesc nodes u targetId currentDist newDist)
                (some u) (some e.id) σ2 perms :: r.2)
      else
        let r := relaxEdges nodes u σ perms (idx + 1) rest
        (r.1, mkStep idx (noUpdDesc nodes targetId currentDist newDist)
                (some u) (some e.id) σ perms :: r.2)
    else
      relaxEdges nodes u σ perms idx rest

/-- The relaxation from the just-finalized node `u` exactly as the
specification words it, for comparison with `relaxEdges`: an edge is
skipped when the other endpoint `v` is already `permanent` or when `u = v`
(self-loop); otherwise `candidate = distance[u] + weight` strictly improving
`distance[v]` updates `v`'s label and emits an update Step, and a
non-improving candidate leaves the labels unchanged and emits a
no-improvement Step. -/
def relaxPerSpec (nodes : List Node) (u : String) :
    StMap → List String → Nat → List Edge → StMap × List AlgorithmStep
  | σ, _, _, [] => (σ, [])
  | σ, perms, idx, e :: rest =>
    let v := if e.source = u then e.target else e.source
    if v = u ∨ (getSt σ v).status = NodeStatus.permanent then
      relaxPerSpec nodes u σ perms idx rest
    else
      let cand := (getSt σ u).distance + (e.weight : WithTop ℤ)
      if cand < (getSt σ v).distance then
        let σ2 := updateSt σ v
          { distance := cand, parent := some u, status := NodeStatus.temporary }
        let r := relaxPerSpec nodes u σ2 perms (idx + 1) rest
        (r.1, mkStep idx (updDesc nodes u v (getSt σ v).distance cand)
                (some u) (some e.id) σ2 perms :: r.2)
      else
        let r := relaxPerSpec nodes u σ perms (idx + 1) rest
        (r.1, mkStep idx (noUpdDesc nodes v (getSt σ v).distance cand)
                (some u) (some e.id) σ perms :: r.2)

/-- The `while (unvisitedCount > 0)` loop.  `unvisitedCount` (first argument)
is decremented exactly when a node is finalized; `idx` is `steps.length`. -/
def loopRun (nodes : List Node) (edges : List Edge) (endNodeId : String) :
    Nat → StMap → List String → Nat → List AlgorithmStep
  | 0, _, _, _ => []
  | k + 1, σ, perms, idx =>
    match selectMin nodes σ with
    | (_, none) => [mkStep idx termDesc none none σ perms]
    | (m, some u) =>
      if m = ⊤ then [mkStep idx termDesc none none σ perms]
      else
        let σ1 := finalizeState σ u
        let perms1 := perms ++ [u]
        let fin := mkStep idx (finDesc nodes u σ1) (some u) none σ1 perms1
        if u = endNodeId then
          [fin, mkStep (idx + 1) (arrDesc nodes u) (some u) none σ1 perms1]
        else
          let r := relaxEdges nodes u σ1 perms1 (idx + 1)
            (edges.filter (fun e => e.source = u ∨ e.target = u))
          fin :: (r.2 ++ loopRun nodes edges endNodeId k r.1 perms1 (idx + 1 + r.2.length))

/-- `runDoubleLabeling` from src/services/dijkstra.ts. -/
def runDoubleLabeling (nodes : List Node) (edges : List Edge)
    (startNodeId endNodeId : String) : List AlgorithmStep :=
  let σ0 := initStates nodes startNodeId
  mkStep 0 initDesc none none σ0 [] :: loopRun nodes edges endNodeId nodes.length σ0 [] 1

/-- A placeholder step for out-of-range trace access. -/
def emptyStep : AlgorithmStep :=
  { stepIndex := 0, description := "", activeNodeId := none,
    checkingEdgeId := none, nodeStates := [], permanentNodes := [] }

/-- The step at index `i` of a trace (placeholder when out of range). -/
def stepAt (tr : List AlgorithmStep) (i : Nat) : AlgorithmStep :=
  tr.getD i emptyStep

/-- The permanent-node list recorded at index `i` of a trace. -/
def permsAt (tr : List AlgorithmStep) (i : Nat) : List String :=
  (stepAt tr i).permanentNodes

/-- Position of a status along `unvisited → temporary → permanent`. -/
def rank : NodeStatus → Nat
  | NodeStatus.unvisited => 0
  | NodeStatus.temporary => 1
  | NodeStatus.permanent => 2

/-- Label maps only evolve forward: statuses never move backward, and a
permanently labelled node's whole label is frozen. -/
def labelsForward (σ τ : StMap) : Prop :=
  ∀ id, rank (getSt σ id).status ≤ rank (getSt τ id).status ∧
    ((getSt σ id).status = NodeStatus.permanent → getSt τ id = getSt σ id)

/-- Snapshot evolution: labels move forward and the permanent list is only
ever extended at the end. -/
def progress (a b : StMap × List String) : Prop :=
  labelsForward a.1 b.1 ∧ ∃ t, b.2 = a.2 ++ t

/-- The data of a step that evolves over the trace. -/
def snapPair (s : AlgorithmStep) : StMap × List String :=
  (s.nodeStates, s.permanentNodes)

/-- The loop invariant tying the record to the permanent-node list:
all node keys are present, the permanent list is exactly the set of
permanently labelled ids, unvisited nodes still carry the `⊤` sentinel,
and the permanent list has no duplicates and only graph node ids. -/
def Gd (nodes : List Node) (σ : StMap) (perms : List String) : Prop :=
  (∀ n ∈ nodes, (lookupSt σ n.id).isSome = true) ∧
  (∀ id, id ∈ perms ↔ (getSt σ id).status = NodeStatus.permanent) ∧
  (∀ id, (getSt σ id).status = NodeStatus.unvisited → (getSt σ id).distance = ⊤) ∧
  perms.Nodup ∧
  (∀ p ∈ perms, p ∈ nodes.map Node.id)

/-- Distance invariant carried through the loop: permanent nodes are
permanently labelled, their recorded distances are ordered by finalization
order, and every permanent distance is below every non-permanent one. -/
def DInv (nodes : List Node) (σ : StMap) (perms : List String) : Prop :=
  (∀ p ∈ perms, (getSt σ p).status = NodeStatus.permanent) ∧
  List.Pairwise (fun a b => (getSt σ a).distance ≤ (getSt σ b).distance) perms ∧
  (∀ p ∈ perms, ∀ n ∈ nodes, (getSt σ n.id).status ≠ NodeStatus.permanent →
    (getSt σ p).distance ≤ (getSt σ n.id).distance)

/-- `INITIAL_NODES` from src/constants.ts. -/
def INITIAL_NODES : List Node :=
  [⟨"1", 220, 150, some "v1"⟩, ⟨"2", 420, 50, some "v2"⟩,
   ⟨"3", 420, 250, some "v3"⟩, ⟨"4", 620, 50, some "v4"⟩,
   ⟨"5", 620, 250, some "v5"⟩, ⟨"6", 820, 150, some "v6"⟩]

/-- `INITIAL_EDGES` from src/constants.ts. -/
def INITIAL_EDGES : List Edge :=
  [⟨"e1", "1", "2", 4⟩, ⟨"e2", "1", "3", 2⟩, ⟨"e3", "2", "3", 1⟩,
   ⟨"e4", "2", "4", 5⟩, ⟨"e5", "3", "4", 8⟩, ⟨"e6", "3", "5", 10⟩,
   ⟨"e7", "4", "5", 2⟩, ⟨"e8", "4", "6", 6⟩, ⟨"e9", "5", "6", 3⟩]

/-- The default run of the app: example graph, start `v1`, end `v6`. -/
def exTrace : List AlgorithmStep :=
  runDoubleLabeling INITIAL_NODES INITIAL_EDGES "1" "6"

/-- A two-node graph with no edges: the end node is disconnected from start. -/
def discNodes : List Node := [⟨"1", 0, 0, some "a"⟩, ⟨"2", 1, 1, some "b"⟩]

/-- Trace for the disconnected graph (start `1`, end `2`). -/
def discTrace : List AlgorithmStep := runDoubleLabeling discNodes [] "1" "2"

/-! ### Association-list lemmas for the label-state record -/

theorem updateSt_of_none (σ : StMap) (k : String) (v : AlgorithmNodeState)
    (h : lookupSt σ k = none) : updateSt σ k v = σ := by
  induction σ with
  | nil => rfl
  | cons p t ih =>
    obtain ⟨a, b⟩ := p
    by_cases hak : a = k
    · simp [lookupSt, hak] at h
    · simp only [updateSt, if_neg hak]
      simp only [lookupSt, if_neg hak] at h
      rw [ih h]

theorem lookupSt_update_self (σ : StMap) (k : String) (v : AlgorithmNodeState)
    (h : (lookupSt σ k).isSome = true) :
    lookupSt (updateSt σ k v) k = some v := by
  induction σ with
  | nil => simp [lookupSt] at h
  | cons p t ih =>
    obtain ⟨a, b⟩ := p
    by_cases hak : a = k
    · simp [updateSt, lookupSt, hak]
    · simp only [updateSt, if_neg hak, lookupSt]
      simp only [lookupSt, if_neg hak] at h
      exact ih h

theorem lookupSt_update_ne (σ : StMap) (k k' : String) (v : AlgorithmNodeState)
    (h : k' ≠ k) : lookupSt (updateSt σ k v) k' = lookupSt σ k' := by
  induction σ with
  | nil => rfl
  | cons p t ih =>
    obtain ⟨a, b⟩ := p
    by_cases hak : a = k
    · subst hak
      simp [updateSt, lookupSt, Ne.symm h]
    · simp only [updateSt, if_neg hak, lookupSt]
      by_cases hak' : a = k'
      · simp [hak']
      · rw [if_neg hak', if_neg hak', ih]

theorem isSome_lookupSt_update (σ : StMap) (k k' : String) (v : AlgorithmNodeState) :
    (lookupSt (updateSt σ k v) k').isSome = (lookupSt σ k').isSome := by
  by_cases hk : k' = k
  · subst hk
    rcases h : lookupSt σ k' with _ | w
    · rw [updateSt_of_none σ k' v h, h]
    · rw [lookupSt_update_self σ k' v (by rw [h]; rfl)]
      rfl
  · rw [lookupSt_update_ne σ k k' v hk]

theorem getSt_update_self (σ : StMap) (k : String) (v : AlgorithmNodeState)
    (h : (lookupSt σ k).isSome = true) : getSt (updateSt σ k v) k = v := by
  rw [getSt, lookupSt_update_self σ k v h]; rfl

theorem getSt_update_ne (σ : StMap) (k k' : String) (v : AlgorithmNodeState)
    (h : k' ≠ k) : getSt (updateSt σ k v) k' = getSt σ k' := by
  rw [getSt, getSt, lookupSt_update_ne σ k k' v h]

theorem getSt_update_of_none (σ : StMap) (k k' : String) (v : AlgorithmNodeState)
    (h : lookupSt σ k = none) : getSt (updateSt σ k v) k' = getSt σ k' := by
  rw [updateSt_of_none σ k v h]

theorem lookupSt_insert_self (σ : StMap) (k : String) (v : AlgorithmNodeState) :
    lookupSt (insertSt σ k v) k = some v := by
  induction σ with
  | nil => simp [insertSt, lookupSt]
  | cons p t ih =>
    obtain ⟨a, b⟩ := p
    by_cases hak : a = k
    · simp [insertSt, lookupSt, hak]
    · simp only [insertSt, if_neg hak, lookupSt, if_neg hak]
      exact ih

theorem lookupSt_insert_ne (σ : StMap) (k k' : String) (v : AlgorithmNodeState)
    (h : k' ≠ k) : lookupSt (insertSt σ k v) k' = lookupSt σ k' := by
  induction σ with
  | nil => simp [insertSt, lookupSt, Ne.symm h]
  | cons p t ih =>
    obtain ⟨a, b⟩ := p
    by_cases hak : a = k
    · subst hak
      simp [insertSt, lookupSt, Ne.symm h]
    · simp only [insertSt, if_neg hak, lookupSt]
      by_cases hak' : a = k'
      · simp [hak']
      · rw [if_neg hak', if_neg hak', ih]

theorem isSome_lookupSt_insert (σ : StMap) (k k' : String) (v : AlgorithmNodeState)
    (h : (lookupSt σ k').isSome = true) :
    (lookupSt (insertSt σ k v) k').isSome = true := by
  by_cases hk : k' = k
  · subst hk; rw [lookupSt_insert_self]; rfl
  · rw [lookupSt_insert_ne σ k k' v hk]; exact h

/-! ### Shape of the initial record -/

theorem lookupSt_initStates_aux (s : String) (l : List Node) :
    ∀ (σ : StMap),
      (∀ id, lookupSt σ id = none ∨ lookupSt σ id = some (initState s id)) →
      ∀ id, lookupSt (List.foldl (fun σ n => insertSt σ n.id (initState s n.id)) σ l) id = none ∨
        lookupSt (List.foldl (fun σ n => insertSt σ n.id (initState s n.id)) σ l) id =
          some (initState s id) := by
  induction l with
  | nil => intro σ h id; exact h id
  | cons n t ih =>
    intro σ h id
    refine ih (insertSt σ n.id (initState s n.id)) ?_ id
    intro id'
    by_cases hid : id' = n.id
    · right
      rw [hid]
      exact lookupSt_insert_self σ n.id (initState s n.id)
    · rw [lookupSt_insert_ne σ n.id id' _ hid]
      exact h id'

theorem lookupSt_initStates (nodes : List Node) (s id : String) :
    lookupSt (initStates nodes s) id = none ∨
      lookupSt (initStates nodes s) id = some (initState s id) := by
  exact lookupSt_initStates_aux s nodes [] (fun _ => Or.inl rfl) id

theorem getSt_initStates (nodes : List Node) (s id : String) :
    getSt (initStates nodes s) id = defaultState ∨
      getSt (initStates nodes s) id = initState s id := by
  rcases lookupSt_initStates nodes s id with h | h
  · left; rw [getSt, h]; rfl
  · right; rw [getSt, h]; rfl

theorem initStates_isSome_aux (s : String) (l : List Node) :
    ∀ (σ : StMap) (id : String),
      ((lookupSt σ id).isSome = true ∨ ∃ n ∈ l, n.id = id) →
      (lookupSt (List.foldl (fun σ n => insertSt σ n.id (initState s n.id)) σ l) id).isSome
        = true := by
  induction l with
  | nil =>
    intro σ id h
    rcases h with h | ⟨n, hn, _⟩
    · exact h
    · exact absurd hn (List.not_mem_nil n)
  | cons n t ih =>
    intro σ id h
    refine ih (insertSt σ n.id (initState s n.id)) id ?_
    rcases h with h | ⟨n', hn', hid⟩
    · exact Or.inl (isSome_lookupSt_insert σ n.id id _ h)
    · rcases List.mem_cons.mp hn' with h1 | h1
      · left
        rw [← hid, h1, lookupSt_insert_self]
        rfl
      · exact Or.inr ⟨n', h1, hid⟩

theorem initStates_isSome (nodes : List Node) (s : String) :
    ∀ n ∈ nodes, (lookupSt (initStates nodes s) n.id).isSome = true := by
  intro n hn
  exact initStates_isSome_aux s nodes [] n.id (Or.inr ⟨n, hn, rfl⟩)

/-! ### Characterization of the selection scan -/

theorem selectMin_aux (σ : StMap) (l : List Node) :
    ∀ (acc : WithTop ℤ × Option String),
      (List.foldl (selStep σ) acc l = acc ∧
        ∀ n ∈ l, (getSt σ n.id).status ≠ NodeStatus.permanent →
          acc.1 ≤ (getSt σ n.id).distance) ∨
      (∃ l1 n l2, l = l1 ++ n :: l2 ∧
        List.foldl (selStep σ) acc l = ((getSt σ n.id).distance, some n.id) ∧
        (getSt σ n.id).status ≠ NodeStatus.permanent ∧
        (getSt σ n.id).distance < acc.1 ∧
        (∀ n' ∈ l1, (getSt σ n'.id).status ≠ NodeStatus.permanent →
          (getSt σ n.id).distance < (getSt σ n'.id).distance) ∧
        (∀ n' ∈ l2, (getSt σ n'.id).status ≠ NodeStatus.permanent →
          (getSt σ n.id).distance ≤ (getSt σ n'.id).distance)) := by
  induction l with
  | nil =>
    intro acc
    left
    exact ⟨rfl, fun n hn => absurd hn (List.not_mem_nil n)⟩
  | cons n t ih =>
    intro acc
    by_cases hsel : (getSt σ n.id).status ≠ NodeStatus.permanent ∧
        (getSt σ n.id).distance < acc.1
    · have hfold : List.foldl (selStep σ) acc (n :: t) =
          List.foldl (selStep σ) ((getSt σ n.id).distance, some n.id) t := by
        simp only [List.foldl_cons, selStep, if_pos hsel]
      rcases ih ((getSt σ n.id).distance, some n.id) with ⟨heq, hbnd⟩ | ⟨l1, m, l2, hsplit, heq, hm, hlt, hl1, hl2⟩
      · right
        refine ⟨[], n, t, rfl, ?_, hsel.1, hsel.2, ?_, ?_⟩
        · rw [hfold, heq]
        · intro n' hn'; exact absurd hn' (List.not_mem_nil n')
        · intro n' hn' hn'p
          exact hbnd n' hn' hn'p
      · right
        refine ⟨n :: l1, m, l2, by rw [hsplit, List.cons_append], ?_, hm, ?_, ?_, hl2⟩
        · rw [hfold, heq]
        · exact lt_trans hlt hsel.2
        · intro n' hn' hn'p
          rcases List.mem_cons.mp hn' with h1 | h1
          · subst h1; exact hlt
          · exact hl1 n' h1 hn'p
    · have hfold : List.foldl (selStep σ) acc (n :: t) = List.foldl (selStep σ) acc t := by
        simp only [List.foldl_cons, selStep, if_neg hsel]
      have hnle : (getSt σ n.id).status ≠ NodeStatus.permanent →
          acc.1 ≤ (getSt σ n.id).distance := by
        intro hp
        by_contra hc
        exact hsel ⟨hp, lt_of_not_le hc⟩
      rcases ih acc with ⟨heq, hbnd⟩ | ⟨l1, m, l2, hsplit, heq, hm, hlt, hl1, hl2⟩
      · left
        refine ⟨by rw [hfold, heq], ?_⟩
        intro n' hn' hn'p
        rcases List.mem_cons.mp hn' with h1 | h1
        · subst h1; exact hnle hn'p
        · exact hbnd n' h1 hn'p
      · right
        refine ⟨n :: l1, m, l2, by rw [hsplit, List.cons_append], by rw [hfold, heq], hm, hlt, ?_, hl2⟩
        intro n' hn' hn'p
        rcases List.mem_cons.mp hn' with h1 | h1
        · subst h1; exact lt_of_lt_of_le hlt (hnle hn'p)
        · exact hl1 n' h1 hn'p

theorem selectMin_some_spec (nodes : List Node) (σ : StMap) (m : WithTop ℤ) (u : String)
    (h : selectMin nodes σ = (m, some u)) :
    ∃ l1 n l2, nodes = l1 ++ n :: l2 ∧ n.id = u ∧
      (getSt σ n.id).distance = m ∧
      (getSt σ n.id).status ≠ NodeStatus.permanent ∧ m < ⊤ ∧
      (∀ n' ∈ l1, (getSt σ n'.id).status ≠ NodeStatus.permanent →
        m < (getSt σ n'.id).distance) ∧
      (∀ n' ∈ l2, (getSt σ n'.id).status ≠ NodeStatus.permanent →
        m ≤ (getSt σ n'.id).distance) := by
  rcases selectMin_aux σ nodes (⊤, none) with ⟨heq, _⟩ | ⟨l1, n, l2, hsplit, heq, hp, hlt, hl1, hl2⟩
  · rw [selectMin] at h
    rw [heq] at h
    exact absurd (congrArg Prod.snd h) (by simp)
  · rw [selectMin] at h
    rw [heq] at h
    have hmd : (getSt σ n.id).distance = m := congrArg Prod.fst h
    have hid : n.id = u := by
      have := congrArg Prod.snd h
      simpa using this
    refine ⟨l1, n, l2, hsplit, hid, hmd, hp, ?_, ?_, ?_⟩
    · rw [← hmd]; exact hlt
    · intro n' hn' hn'p; rw [← hmd]; exact hl1 n' hn' hn'p
    · intro n' hn' hn'p; rw [← hmd]; exact hl2 n' hn' hn'p

theorem selectMin_min (nodes : List Node) (σ : StMap) (m : WithTop ℤ) (u : String)
    (h : selectMin nodes σ = (m, some u)) :
    ∀ n ∈ nodes, (getSt σ n.id).status ≠ NodeStatus.permanent →
      m ≤ (getSt σ n.id).distance := by
  rcases selectMin_some_spec nodes σ m u h with
    ⟨l1, n, l2, hsplit, _, hmd, _, _, hl1, hl2⟩
  intro n' hn' hn'p
  rw [hsplit] at hn'
  rcases List.mem_append.mp hn' with h1 | h1
  · exact le_of_lt (hl1 n' h1 hn'p)
  · rcases List.mem_cons.mp h1 with h2 | h2
    · subst h2; rw [hmd]
    · exact hl2 n' h2 hn'p

theorem selectMin_mem (nodes : List Node) (σ : StMap) (m : WithTop ℤ) (u : String)
    (h : selectMin nodes σ = (m, some u)) :
    ∃ n ∈ nodes, n.id = u ∧ (getSt σ n.id).distance = m ∧
      (getSt σ n.id).status ≠ NodeStatus.permanent := by
  rcases selectMin_some_spec nodes σ m u h with
    ⟨l1, n, l2, hsplit, hid, hmd, hp, _, _, _⟩
  exact ⟨n, by rw [hsplit]; exact List.mem_append_right l1 (List.mem_cons_self n l2),
    hid, hmd, hp⟩

theorem selectMin_lt_top (nodes : List Node) (σ : StMap) (m : WithTop ℤ) (u : String)
    (h : selectMin nodes σ = (m, some u)) : m < ⊤ := by
  rcases selectMin_some_spec nodes σ m u h with ⟨_, _, _, _, _, _, _, hlt, _⟩
  exact hlt

/-! ### Effect of finalization on the record -/

theorem finalizeState_of_none (σ : StMap) (u : String) (h : lookupSt σ u = none) :
    finalizeState σ u = σ :=
  updateSt_of_none σ u _ h

theorem getSt_finalize_ne (σ : StMap) (u id : String) (h : id ≠ u) :
    getSt (finalizeState σ u) id = getSt σ id :=
  getSt_update_ne σ u id _ h

theorem getSt_finalize_self (σ : StMap) (u : String) (h : (lookupSt σ u).isSome = true) :
    getSt (finalizeState σ u) u = { getSt σ u with status := NodeStatus.permanent } :=
  getSt_update_self σ u _ h

theorem finalize_distance (σ : StMap) (u id : String) :
    (getSt (finalizeState σ u) id).distance = (getSt σ id).distance := by
  by_cases hid : id = u
  · subst hid
    rcases h : lookupSt σ id with _ | w
    · rw [finalizeState_of_none σ id h]
    · rw [getSt_finalize_self σ id (by rw [h]; rfl)]
  · rw [getSt_finalize_ne σ u id hid]

theorem finalize_parent (σ : StMap) (u id : String) :
    (getSt (finalizeState σ u) id).parent = (getSt σ id).parent := by
  by_cases hid : id = u
  · subst hid
    rcases h : lookupSt σ id with _ | w
    · rw [finalizeState_of_none σ id h]
    · rw [getSt_finalize_self σ id (by rw [h]; rfl)]
  · rw [getSt_finalize_ne σ u id hid]

theorem isSome_finalize (σ : StMap) (u id : String) :
    (lookupSt (finalizeState σ u) id).isSome = (lookupSt σ id).isSome :=
  isSome_lookupSt_update σ u id _

/-! ### The structural loop invariant -/

theorem Gd_init (nodes : List Node) (s : String) :
    Gd nodes (initStates nodes s) [] := by
  refine ⟨initStates_isSome nodes s, ?_, ?_, List.nodup_nil, ?_⟩
  · intro id
    constructor
    · intro h; exact absurd h (List.not_mem_nil id)
    · intro h
      exfalso
      rcases getSt_initStates nodes s id with h0 | h0 <;> rw [h0] at h
      · exact NodeStatus.noConfusion h
      · rw [initState] at h
        by_cases hid : id = s <;> simp [hid] at h
  · intro id h
    rcases getSt_initStates nodes s id with h0 | h0 <;> rw [h0] at h ⊢
    · rfl
    · rw [initState] at h ⊢
      by_cases hid : id = s <;> simp [hid] at h ⊢
  · intro p hp; exact absurd hp (List.not_mem_nil p)

theorem Gd_finalize (nodes : List Node) (σ : StMap) (perms : List String)
    (m : WithTop ℤ) (u : String)
    (hGd : Gd nodes σ perms) (hsel : selectMin nodes σ = (m, some u)) :
    Gd nodes (finalizeState σ u) (perms ++ [u]) := by
  obtain ⟨hdom, hex, hunv, hnd, hsub⟩ := hGd
  obtain ⟨n, hn, hnu, _, hnp⟩ := selectMin_mem nodes σ m u hsel
  have hu_some : (lookupSt σ u).isSome = true := by
    rw [← hnu]; exact hdom n hn
  have hself : getSt (finalizeState σ u) u =
      { getSt σ u with status := NodeStatus.permanent } :=
    getSt_finalize_self σ u hu_some
  have hu_nin : u ∉ perms := by
    intro hmem
    exact hnp (by rw [hnu]; exact (hex u).mp hmem)
  refine ⟨?_, ?_, ?_, ?_, ?_⟩
  · intro n' hn'
    rw [isSome_finalize]; exact hdom n' hn'
  · intro id
    by_cases hid : id = u
    · subst hid
      constructor
      · intro _; rw [hself]
      · intro _; exact List.mem_append_right perms (List.mem_singleton.mpr rfl)
    · rw [List.mem_append, List.mem_singleton, getSt_finalize_ne σ u id hid]
      constructor
      · intro h
        rcases h with h | h
        · exact (hex id).mp h
        · exact absurd h hid
      · intro h; exact Or.inl ((hex id).mpr h)
  · intro id h
    by_cases hid : id = u
    · subst hid
      rw [hself] at h
      exact NodeStatus.noConfusion h
    · rw [getSt_finalize_ne σ u id hid] at h ⊢
      exact hunv id h
  · rw [List.nodup_append]
    exact ⟨hnd, List.nodup_singleton u, by
      intro a ha hb
      rw [List.mem_singleton] at hb
      subst hb
      exact hu_nin ha⟩
  · intro p hp
    rcases List.mem_append.mp hp with h | h
    · exact hsub p h
    · rw [List.mem_singleton] at h
      subst h
      rw [← hnu]
      exact List.mem_map_of_mem Node.id hn

theorem Gd_relaxUpdate (nodes : List Node) (σ : StMap) (perms : List String)
    (targetId u : String) (d : WithTop ℤ)
    (hGd : Gd nodes σ perms)
    (ht : (getSt σ targetId).status ≠ NodeStatus.permanent) :
    Gd nodes (updateSt σ targetId
      { distance := d, parent := some u, status := NodeStatus.temporary }) perms := by
  obtain ⟨hdom, hex, hunv, hnd, hsub⟩ := hGd
  rcases hlk : lookupSt σ targetId with _ | w
  · rw [updateSt_of_none σ targetId _ hlk]
    exact ⟨hdom, hex, hunv, hnd, hsub⟩
  · have hsome : (lookupSt σ targetId).isSome = true := by rw [hlk]; rfl
    have hself := getSt_update_self σ targetId
      { distance := d, parent := some u, status := NodeStatus.temporary } hsome
    refine ⟨?_, ?_, ?_, hnd, hsub⟩
    · intro n' hn'
      rw [isSome_lookupSt_update]; exact hdom n' hn'
    · intro id
      by_cases hid : id = targetId
      · subst hid
        rw [hself]
        constructor
        · intro h
          exact absurd ((hex id).mp h) ht
        · intro h; exact NodeStatus.noConfusion h
      · rw [getSt_update_ne σ targetId id _ hid]
        exact hex id
    · intro id h
      by_cases hid : id = targetId
      · subst hid
        rw [hself] at h
        exact NodeStatus.noConfusion h
      · rw [getSt_update_ne σ targetId id _ hid] at h ⊢
        exact hunv id h

theorem relax_Gd (nodes : List Node) (u : String) :
    ∀ (σ : StMap) (perms : List String) (idx : Nat) (es : List Edge),
      Gd nodes σ perms →
      Gd nodes (relaxEdges nodes u σ perms idx es).1 perms ∧
      ∀ st ∈ (relaxEdges nodes u σ perms idx es).2,
        Gd nodes st.nodeStates st.permanentNodes := by
  intro σ perms idx es
  induction σ, perms, idx, es using relaxEdges.induct nodes u with
  | case1 σ perms idx =>
    intro hGd
    exact ⟨hGd, fun st hst => absurd hst (List.not_mem_nil st)⟩
  | case2 σ perms idx e rest targetId ht newDist currentDist hlt σ2 ih =>
    intro hGd
    have hGd2 : Gd nodes σ2 perms := Gd_relaxUpdate nodes σ perms targetId u newDist hGd ht
    have hr := ih hGd2
    have heq : relaxEdges nodes u σ perms idx (e :: rest) =
        ((relaxEdges nodes u σ2 perms (idx + 1) rest).1,
          mkStep idx (updDesc nodes u targetId currentDist newDist)
            (some u) (some e.id) σ2 perms ::
            (relaxEdges nodes u σ2 perms (idx + 1) rest).2) := by
      simp only [relaxEdges, if_pos ht, if_pos hlt]
    rw [heq]
    refine ⟨hr.1, ?_⟩
    intro st hst
    rcases List.mem_cons.mp hst with h | h
    · subst h; exact hGd2
    · exact hr.2 st h
  | case3 σ perms idx e rest targetId ht newDist currentDist hlt ih =>
    intro hGd
    have hr := ih hGd
    have heq : relaxEdges nodes u σ perms idx (e :: rest) =
        ((relaxEdges nodes u σ perms (idx + 1) rest).1,
          mkStep idx (noUpdDesc nodes targetId currentDist newDist)
            (some u) (some e.id) σ perms ::
            (relaxEdges nodes u σ perms (idx + 1) rest).2) := by
      simp only [relaxEdges, if_pos ht, if_neg hlt]
    rw [heq]
    refine ⟨hr.1, ?_⟩
    intro st hst
    rcases List.mem_cons.mp hst with h | h
    · subst h; exact hGd
    · exact hr.2 st h
  | case4 σ perms idx e rest targetId ht ih =>
    intro hGd
    have heq : relaxEdges nodes u σ perms idx (e :: rest) =
        relaxEdges nodes u σ perms idx rest := by
      simp only [relaxEdges, if_neg ht]
    rw [heq]
    exact ih hGd

theorem loop_Gd (nodes : List Node) (edges : List Edge) (endNodeId : String) :
    ∀ (fuel : Nat) (σ : StMap) (perms : List String) (idx : Nat),
      Gd nodes σ perms →
      ∀ st ∈ loopRun nodes edges endNodeId fuel σ perms idx,
        Gd nodes st.nodeStates st.permanentNodes := by
  intro fuel σ perms idx
  induction fuel, σ, perms, idx using loopRun.induct nodes edges endNodeId with
  | case1 σ perms idx =>
    intro _ st hst
    exact absurd hst (List.not_mem_nil st)
  | case2 k σ perms idx m hsel =>
    intro hGd st hst
    have heq : loopRun nodes edges endNodeId (k + 1) σ perms idx =
        [mkStep idx termDesc none none σ perms] := by
      simp only [loopRun, hsel]
    rw [heq] at hst
    rcases List.mem_singleton.mp hst with h
    subst h
    exact hGd
  | case3 k σ perms idx u hsel =>
    intro hGd st hst
    have heq : loopRun nodes edges endNodeId (k + 1) σ perms idx =
        [mkStep idx termDesc none none σ perms] := by
      simp only [loopRun, hsel, if_true, eq_self_iff_true]
    rw [heq] at hst
    rcases List.mem_singleton.mp hst with h
    subst h
    exact hGd
  | case4 k σ perms idx m hm hsel =>
    intro hGd st hst
    have hGd1 : Gd nodes (finalizeState σ endNodeId) (perms ++ [endNodeId]) :=
      Gd_finalize nodes σ perms m endNodeId hGd hsel
    have heq : loopRun nodes edges endNodeId (k + 1) σ perms idx =
        [mkStep idx (finDesc nodes endNodeId (finalizeState σ endNodeId))
          (some endNodeId) none (finalizeState σ endNodeId) (perms ++ [endNodeId]),
         mkStep (idx + 1) (arrDesc nodes endNodeId) (some endNodeId) none
          (finalizeState σ endNodeId) (perms ++ [endNodeId])] := by
      simp only [loopRun, hsel, if_neg hm, if_true, eq_self_iff_true]
    rw [heq] at hst
    rcases List.mem_cons.mp hst with h | h
    · subst h; exact hGd1
    · rcases List.mem_singleton.mp h with h2
      subst h2; exact hGd1
  | case5 k σ perms idx m u hsel hm σ1 perms1 hne r ih =>
    intro hGd st hst
    have hGd1 : Gd nodes σ1 perms1 :=
      Gd_finalize nodes σ perms m u hGd hsel
    have hrel := relax_Gd nodes u σ1 perms1 (idx + 1)
      (List.filter (fun e => decide (e.source = u ∨ e.target = u)) edges) hGd1
    have heq : loopRun nodes edges endNodeId (k + 1) σ perms idx =
        mkStep idx (finDesc nodes u σ1) (some u) none σ1 perms1 ::
          (r.2 ++ loopRun nodes edges endNodeId k r.1 perms1 (idx + 1 + r.2.length)) := by
      simp only [loopRun, hsel, if_neg hm, if_neg hne]
    rw [heq] at hst
    rcases List.mem_cons.mp hst with h | h
    · subst h; exact hGd1
    · rcases List.mem_append.mp h with h2 | h2
      · exact hrel.2 st h2
      · exact ih hrel.1 st h2

/-- Every step of a trace satisfies the structural invariant. -/
theorem trace_Gd (nodes : List Node) (edges : List Edge) (s e : String) :
    ∀ st ∈ runDoubleLabeling nodes edges s e,
      Gd nodes st.nodeStates st.permanentNodes := by
  intro st hst
  rw [runDoubleLabeling] at hst
  rcases List.mem_cons.mp hst with h | h
  · subst h
    exact Gd_init nodes s
  · exact loop_Gd nodes edges e nodes.length (initStates nodes s) [] 1
      (Gd_init nodes s) st h

theorem stepAt_mem (tr : List AlgorithmStep) (i : Nat) (h : i < tr.length) :
    stepAt tr i ∈ tr := by
  rw [stepAt, List.getD_eq_getElem tr emptyStep h]
  exact List.getElem_mem h

/-! ### Claim C1 -/

/-- C1 counterexample: on the empty node list (an invalid input according to
the claim) `runDoubleLabeling` raises no error and returns one Step (the
initialization snapshot), not zero Steps. -/
theorem C1_counterexample :
    runDoubleLabeling [] [] "1" "6" = [mkStep 0 initDesc none none [] []] ∧
    (runDoubleLabeling [] [] "1" "6").length ≠ 0 :=
  ⟨by rfl, by decide⟩

/-- C1 (amended): the engine performs no input validation and has no
`GraphInvalid` error channel.  For any input whose edges reference existing
node ids (so the JS run does not throw), it proceeds and returns a trace that
begins with the initialization Step; in particular on an empty node list it
returns exactly that one Step instead of failing. -/
theorem C1_no_validation (nodes : List Node) (edges : List Edge) (s e : String)
    (hE : ∀ ed ∈ edges, ed.source ∈ nodes.map Node.id ∧ ed.target ∈ nodes.map Node.id) :
    (∃ rest, runDoubleLabeling nodes edges s e =
      mkStep 0 initDesc none none (initStates nodes s) [] :: rest) ∧
    (nodes = [] → runDoubleLabeling nodes edges s e =
      [mkStep 0 initDesc none none (initStates nodes s) []]) := by
  constructor
  · exact ⟨loopRun nodes edges e nodes.length (initStates nodes s) [] 1, rfl⟩
  · intro h
    subst h
    rfl

/-- Witness for C1's amended theorem at the empty graph. -/
theorem C1_no_validation_witness :
    (∃ rest, runDoubleLabeling [] [] "1" "6" =
      mkStep 0 initDesc none none (initStates [] "1") [] :: rest) ∧
    (([] : List Node) = [] → runDoubleLabeling [] [] "1" "6" =
      [mkStep 0 initDesc none none (initStates [] "1") []]) :=
  C1_no_validation [] [] "1" "6" (fun ed hed => absurd hed (List.not_mem_nil ed))

/-! ### Claim C2 -/

/-- C2 failing evaluation: on the two-node graph whose end node `2` is
disconnected from the start, the final (terminal) Step is created while the
end node is still `unvisited` with the working distance at the `Infinity`
sentinel — exactly the situation in which the claim asserts the stored
snapshot carries `+∞` — but the `JSON.parse(JSON.stringify(...))` copy the
source stores (dijkstra.ts line 33) holds `null` (`none`) there, not
`Infinity`, while a reached node's finite distance (the start node's `0`)
survives the round-trip.  The stored snapshot is therefore not structurally
equal to the working map, and `DataTable.tsx`'s `state.distance === Infinity`
test on stored Steps can never fire. -/
theorem C2_json_null_bug :
    (getSt (stepAt discTrace 2).nodeStates "2").status = NodeStatus.unvisited ∧
    (getSt (stepAt discTrace 2).nodeStates "2").distance = ⊤ ∧
    storedDistance (getSt (stepAt discTrace 2).nodeStates "2").distance = none ∧
    (getSt (stepAt discTrace 2).nodeStates "1").distance = ((0 : ℤ) : WithTop ℤ) ∧
    storedDistance (getSt (stepAt discTrace 2).nodeStates "1").distance = some 0 ∧
    (stepAt discTrace 2).description = termDesc := by
  exact ⟨by decide, by decide, by decide, by decide, by decide, by decide⟩

/-! ### Claim C3 -/

/-- C3 counterexample: on the example graph the final permanent distance of
`v6` is `13`, not `11` as the claim states. -/
theorem C3_counterexample :
    (getSt (stepAt exTrace 16).nodeStates "6").distance ≠ (11 : WithTop ℤ) := by
  decide

/-- C3 (amended): on the example graph (start `v1`, end `v6`) the final Step
records `distance[v3]=2` (parent `v1`), `distance[v2]=3` (parent `v3`),
`distance[v4]=8` (parent `v2`), `distance[v5]=10` (parent `v4`), and the
final permanent distance of `v6` is `13` with parent `v5`, i.e. along
`v1→v3→v2→v4→v5→v6`; the finalization order is `v1,v3,v2,v4,v5,v6`. -/
theorem C3_example_trace :
    exTrace.length = 17 ∧
    (getSt (stepAt exTrace 16).nodeStates "3").distance = (2 : WithTop ℤ) ∧
    (getSt (stepAt exTrace 16).nodeStates "3").parent = some "1" ∧
    (getSt (stepAt exTrace 16).nodeStates "2").distance = (3 : WithTop ℤ) ∧
    (getSt (stepAt exTrace 16).nodeStates "2").parent = some "3" ∧
    (getSt (stepAt exTrace 16).nodeStates "4").distance = (8 : WithTop ℤ) ∧
    (getSt (stepAt exTrace 16).nodeStates "4").parent = some "2" ∧
    (getSt (stepAt exTrace 16).nodeStates "5").distance = (10 : WithTop ℤ) ∧
    (getSt (stepAt exTrace 16).nodeStates "5").parent = some "4" ∧
    (getSt (stepAt exTrace 16).nodeStates "6").distance = (13 : WithTop ℤ) ∧
    (getSt (stepAt exTrace 16).nodeStates "6").parent = some "5" ∧
    permsAt exTrace 16 = ["1", "3", "2", "4", "5", "6"] := by
  refine ⟨rfl, ?_, ?_, ?_, ?_, ?_, ?_, ?_, ?_, ?_, ?_, ?_⟩ <;> decide

/-! ### Claim C4 -/

/-- C4: whenever the selection scan returns a node `u`, the node list splits
as `l1 ++ n :: l2` with `n.id = u`, `u` is non-permanent with the returned
minimum distance `m`, every non-permanent node before it is strictly above
`m` (so the first node in the caller-supplied order wins ties), and `m` is a
lower bound on all non-permanent distances; moreover the loop finalizes
exactly that node (the next emitted Step marks `u` permanent). -/
theorem C4_selection_rule :
    (∀ (nodes : List Node) (σ : StMap) (m : WithTop ℤ) (u : String),
      selectMin nodes σ = (m, some u) →
      ∃ l1 n l2, nodes = l1 ++ n :: l2 ∧ n.id = u ∧
        (getSt σ u).distance = m ∧
        (getSt σ u).status ≠ NodeStatus.permanent ∧
        (∀ n' ∈ l1, (getSt σ n'.id).status ≠ NodeStatus.permanent →
          m < (getSt σ n'.id).distance) ∧
        (∀ n' ∈ nodes, (getSt σ n'.id).status ≠ NodeStatus.permanent →
          m ≤ (getSt σ n'.id).distance)) ∧
    (∀ (nodes : List Node) (edges : List Edge) (endNodeId : String) (fuel : Nat)
      (σ : StMap) (perms : List String) (idx : Nat) (m : WithTop ℤ) (u : String),
      selectMin nodes σ = (m, some u) → m ≠ ⊤ →
      ∃ rest, loopRun nodes edges endNodeId (fuel + 1) σ perms idx =
        mkStep idx (finDesc nodes u (finalizeState σ u)) (some u) none
          (finalizeState σ u) (perms ++ [u]) :: rest) := by
  constructor
  · intro nodes σ m u hsel
    rcases selectMin_some_spec nodes σ m u hsel with
      ⟨l1, n, l2, hsplit, hid, hmd, hp, _, hl1, _⟩
    refine ⟨l1, n, l2, hsplit, hid, by rw [← hid]; exact hmd, by rw [← hid]; exact hp,
      ?_, selectMin_min nodes σ m u hsel⟩
    intro n' hn' hn'p
    exact hl1 n' hn' hn'p
  · intro nodes edges endNodeId fuel σ perms idx m u hsel hm
    by_cases hu : u = endNodeId
    · subst hu
      refine ⟨[mkStep (idx + 1) (arrDesc nodes u) (some u) none
        (finalizeState σ u) (perms ++ [u])], ?_⟩
      simp only [loopRun, hsel, if_neg hm, if_true, eq_self_iff_true]
    · refine ⟨(relaxEdges nodes u (finalizeState σ u) (perms ++ [u]) (idx + 1)
        (edges.filter (fun e => e.source = u ∨ e.target = u))).2 ++
        loopRun nodes edges endNodeId fuel
          (relaxEdges nodes u (finalizeState σ u) (perms ++ [u]) (idx + 1)
            (edges.filter (fun e => e.source = u ∨ e.target = u))).1
          (perms ++ [u])
          (idx + 1 + (relaxEdges nodes u (finalizeState σ u) (perms ++ [u]) (idx + 1)
            (edges.filter (fun e => e.source = u ∨ e.target = u))).2.length), ?_⟩
      simp only [loopRun, hsel, if_neg hm, if_neg hu]

/-- Witness for C4 on the example graph's first selection (start node `v1`
selected at distance `0`). -/
theorem C4_selection_rule_witness :
    (∃ l1 n l2, INITIAL_NODES = l1 ++ n :: l2 ∧ n.id = "1" ∧
      (getSt (initStates INITIAL_NODES "1") "1").distance = (0 : WithTop ℤ) ∧
      (getSt (initStates INITIAL_NODES "1") "1").status ≠ NodeStatus.permanent ∧
      (∀ n' ∈ l1, (getSt (initStates INITIAL_NODES "1") n'.id).status ≠
          NodeStatus.permanent →
        (0 : WithTop ℤ) < (getSt (initStates INITIAL_NODES "1") n'.id).distance) ∧
      (∀ n' ∈ INITIAL_NODES, (getSt (initStates INITIAL_NODES "1") n'.id).status ≠
          NodeStatus.permanent →
        (0 : WithTop ℤ) ≤ (getSt (initStates INITIAL_NODES "1") n'.id).distance)) ∧
    (∃ rest, loopRun INITIAL_NODES INITIAL_EDGES "6" 6
        (initStates INITIAL_NODES "1") [] 1 =
      mkStep 1 (finDesc INITIAL_NODES "1" (finalizeState (initStates INITIAL_NODES "1") "1"))
        (some "1") none (finalizeState (initStates INITIAL_NODES "1") "1") [(("1") : String)] :: rest) :=
  ⟨C4_selection_rule.1 INITIAL_NODES (initStates INITIAL_NODES "1") 0 "1" (by decide),
   C4_selection_rule.2 INITIAL_NODES INITIAL_EDGES "6" 5
     (initStates INITIAL_NODES "1") [] 1 0 "1" (by decide) (by decide)⟩

/-! ### Claim C5 -/

theorem relaxUpdate_perm_iff (σ : StMap) (targetId : String) (v : AlgorithmNodeState)
    (hv : v.status ≠ NodeStatus.permanent)
    (ht : (getSt σ targetId).status ≠ NodeStatus.permanent) :
    ∀ id, (getSt (updateSt σ targetId v) id).status = NodeStatus.permanent ↔
      (getSt σ id).status = NodeStatus.permanent := by
  intro idq
  by_cases hid : idq = targetId
  · subst hid
    rcases hlk : lookupSt σ idq with _ | w
    · rw [updateSt_of_none σ idq _ hlk]
    · rw [getSt_update_self σ idq _ (by rw [hlk]; rfl)]
      constructor
      · intro hc; exact absurd hc hv
      · intro hc; exact absurd hc ht
  · rw [getSt_update_ne σ targetId idq _ hid]

theorem filter_perm_congr (σ σ2 : StMap) (u : String)
    (hiff : ∀ id, (getSt σ2 id).status = NodeStatus.permanent ↔
      (getSt σ id).status = NodeStatus.permanent) (l : List Edge) :
    l.filter (fun e =>
        (getSt σ2 (if e.source = u then e.target else e.source)).status ≠
          NodeStatus.permanent) =
    l.filter (fun e =>
        (getSt σ (if e.source = u then e.target else e.source)).status ≠
          NodeStatus.permanent) := by
  apply List.filter_congr
  intro a _
  exact decide_eq_decide.mpr (not_congr (hiff (if a.source = u then a.target else a.source)))

/-- C5: with the just-finalized node `u` marked permanent, the engine's
relaxation loop agrees with the specification's relaxation rule (skip on
permanent other-endpoint or self-loop, strict-improvement update with parent
`u` and `temporary` status, no-improvement Step otherwise), and it emits
exactly one Step per examined edge: the number of emitted Steps equals the
number of listed edges whose other endpoint is not permanent. -/
theorem C5_relaxation_rule :
    ∀ (nodes : List Node) (u : String) (σ : StMap) (perms : List String)
      (idx : Nat) (es : List Edge),
      (getSt σ u).status = NodeStatus.permanent →
      relaxEdges nodes u σ perms idx es = relaxPerSpec nodes u σ perms idx es ∧
      (relaxEdges nodes u σ perms idx es).2.length =
        (es.filter (fun e =>
          (getSt σ (if e.source = u then e.target else e.source)).status ≠
            NodeStatus.permanent)).length := by
  intro nodes u σ perms idx es
  induction σ, perms, idx, es using relaxEdges.induct nodes u with
  | case1 σ perms idx =>
    intro _
    exact ⟨rfl, rfl⟩
  | case2 σ perms idx e rest targetId ht newDist currentDist hlt σ2 ih =>
    intro hu
    have htu : targetId ≠ u := fun h => ht (by rw [h]; exact hu)
    have hu2 : (getSt σ2 u).status = NodeStatus.permanent := by
      rw [getSt_update_ne σ targetId u _ (Ne.symm htu)]
      exact hu
    obtain ⟨ihEq, ihLen⟩ := ih hu2
    have hcond : ¬(targetId = u ∨ (getSt σ targetId).status = NodeStatus.permanent) := by
      rintro (h | h)
      · exact htu h
      · exact ht h
    have hiff : ∀ id, (getSt σ2 id).status = NodeStatus.permanent ↔
        (getSt σ id).status = NodeStatus.permanent :=
      relaxUpdate_perm_iff σ targetId _ (fun h => NodeStatus.noConfusion h) ht
    have hL : relaxEdges nodes u σ perms idx (e :: rest) =
        ((relaxEdges nodes u σ2 perms (idx + 1) rest).1,
          mkStep idx (updDesc nodes u targetId currentDist newDist)
            (some u) (some e.id) σ2 perms ::
            (relaxEdges nodes u σ2 perms (idx + 1) rest).2) := by
      simp only [relaxEdges, if_pos ht, if_pos hlt]
    have hR : relaxPerSpec nodes u σ perms idx (e :: rest) =
        ((relaxPerSpec nodes u σ2 perms (idx + 1) rest).1,
          mkStep idx (updDesc nodes u targetId currentDist newDist)
            (some u) (some e.id) σ2 perms ::
            (relaxPerSpec nodes u σ2 perms (idx + 1) rest).2) := by
      simp only [relaxPerSpec, if_neg hcond, if_pos hlt]
    have hfc : ((e :: rest).filter (fun e =>
        (getSt σ (if e.source = u then e.target else e.source)).status ≠
          NodeStatus.permanent)) =
        e :: (rest.filter (fun e =>
          (getSt σ (if e.source = u then e.target else e.source)).status ≠
            NodeStatus.permanent)) := by
      rw [List.filter_cons, if_pos (by simpa using ht)]
    constructor
    · rw [hL, hR, ihEq]
    · rw [hL, hfc]
      simp only [List.length_cons]
      rw [ihLen, filter_perm_congr σ σ2 u hiff rest]
  | case3 σ perms idx e rest targetId ht newDist currentDist hlt ih =>
    intro hu
    obtain ⟨ihEq, ihLen⟩ := ih hu
    have htu : targetId ≠ u := fun h => ht (by rw [h]; exact hu)
    have hcond : ¬(targetId = u ∨ (getSt σ targetId).status = NodeStatus.permanent) := by
      rintro (h | h)
      · exact htu h
      · exact ht h
    have hL : relaxEdges nodes u σ perms idx (e :: rest) =
        ((relaxEdges nodes u σ perms (idx + 1) rest).1,
          mkStep idx (noUpdDesc nodes targetId currentDist newDist)
            (some u) (some e.id) σ perms ::
            (relaxEdges nodes u σ perms (idx + 1) rest).2) := by
      simp only [relaxEdges, if_pos ht, if_neg hlt]
    have hR : relaxPerSpec nodes u σ perms idx (e :: rest) =
        ((relaxPerSpec nodes u σ perms (idx + 1) rest).1,
          mkStep idx (noUpdDesc nodes targetId currentDist newDist)
            (some u) (some e.id) σ perms ::
            (relaxPerSpec nodes u σ perms (idx + 1) rest).2) := by
      simp only [relaxPerSpec, if_neg hcond, if_neg hlt]
    have hfc : ((e :: rest).filter (fun e =>
        (getSt σ (if e.source = u then e.target else e.source)).status ≠
          NodeStatus.permanent)) =
        e :: (rest.filter (fun e =>
          (getSt σ (if e.source = u then e.target else e.source)).status ≠
            NodeStatus.permanent)) := by
      rw [List.filter_cons, if_pos (by simpa using ht)]
    constructor
    · rw [hL, hR, ihEq]
    · rw [hL, hfc]
      simp only [List.length_cons]
      rw [ihLen]
  | case4 σ perms idx e rest targetId ht ih =>
    intro hu
    obtain ⟨ihEq, ihLen⟩ := ih hu
    have hperm : (getSt σ targetId).status = NodeStatus.permanent := not_not.mp ht
    have hcond : targetId = u ∨ (getSt σ targetId).status = NodeStatus.permanent :=
      Or.inr hperm
    have hL : relaxEdges nodes u σ perms idx (e :: rest) =
        relaxEdges nodes u σ perms idx rest := by
      simp only [relaxEdges, if_neg ht]
    have hR : relaxPerSpec nodes u σ perms idx (e :: rest) =
        relaxPerSpec nodes u σ perms idx rest := by
      simp only [relaxPerSpec, if_pos hcond]
    have hfc : ((e :: rest).filter (fun e =>
        (getSt σ (if e.source = u then e.target else e.source)).status ≠
          NodeStatus.permanent)) =
        (rest.filter (fun e =>
          (getSt σ (if e.source = u then e.target else e.source)).status ≠
            NodeStatus.permanent)) := by
      rw [List.filter_cons, if_neg (by simpa using ht)]
    constructor
    · rw [hL, hR, ihEq]
    · rw [hL, hfc, ihLen]

/-- Witness for C5: relaxation out of the finalized start node of the example
graph (its two incident edges both update). -/
theorem C5_relaxation_rule_witness :
    relaxEdges INITIAL_NODES "1" (finalizeState (initStates INITIAL_NODES "1") "1")
        ["1"] 2 [⟨"e1", "1", "2", 4⟩, ⟨"e2", "1", "3", 2⟩] =
      relaxPerSpec INITIAL_NODES "1" (finalizeState (initStates INITIAL_NODES "1") "1")
        ["1"] 2 [⟨"e1", "1", "2", 4⟩, ⟨"e2", "1", "3", 2⟩] ∧
    (relaxEdges INITIAL_NODES "1" (finalizeState (initStates INITIAL_NODES "1") "1")
        ["1"] 2 [⟨"e1", "1", "2", 4⟩, ⟨"e2", "1", "3", 2⟩]).2.length =
      ([⟨"e1", "1", "2", 4⟩, (⟨"e2", "1", "3", 2⟩ : Edge)].filter (fun e =>
        (getSt (finalizeState (initStates INITIAL_NODES "1") "1")
          (if e.source = "1" then e.target else e.source)).status ≠
            NodeStatus.permanent)).length :=
  C5_relaxation_rule INITIAL_NODES "1" (finalizeState (initStates INITIAL_NODES "1") "1")
    ["1"] 2 [⟨"e1", "1", "2", 4⟩, ⟨"e2", "1", "3", 2⟩] (by decide)

/-! ### Forward-progress chain over the trace -/

theorem labelsForward_refl (σ : StMap) : labelsForward σ σ :=
  fun _ => ⟨le_refl _, fun _ => rfl⟩

theorem labelsForward_trans {a b c : StMap}
    (h1 : labelsForward a b) (h2 : labelsForward b c) : labelsForward a c := by
  intro id
  constructor
  · exact le_trans (h1 id).1 (h2 id).1
  · intro hp
    have hba : getSt b id = getSt a id := (h1 id).2 hp
    have hbp : (getSt b id).status = NodeStatus.permanent := by rw [hba]; exact hp
    rw [(h2 id).2 hbp, hba]

theorem progress_refl (a : StMap × List String) : progress a a :=
  ⟨labelsForward_refl a.1, [], (List.append_nil a.2).symm⟩

theorem progress_trans {a b c : StMap × List String}
    (h1 : progress a b) (h2 : progress b c) : progress a c := by
  refine ⟨labelsForward_trans h1.1 h2.1, ?_⟩
  obtain ⟨t1, ht1⟩ := h1.2
  obtain ⟨t2, ht2⟩ := h2.2
  exact ⟨t1 ++ t2, by rw [ht2, ht1, List.append_assoc]⟩

instance : IsRefl (StMap × List String) progress := ⟨progress_refl⟩

instance : IsTrans (StMap × List String) progress := ⟨fun _ _ _ => progress_trans⟩

theorem labelsForward_update (σ : StMap) (targetId : String) (d : WithTop ℤ)
    (p : Option String) (ht : (getSt σ targetId).status ≠ NodeStatus.permanent) :
    labelsForward σ (updateSt σ targetId
      { distance := d, parent := p, status := NodeStatus.temporary }) := by
  intro id
  by_cases hid : id = targetId
  · subst hid
    rcases hlk : lookupSt σ id with _ | w
    · rw [updateSt_of_none σ id _ hlk]
      exact ⟨le_refl _, fun _ => rfl⟩
    · rw [getSt_update_self σ id _ (by rw [hlk]; rfl)]
      constructor
      · show rank (getSt σ id).status ≤ rank NodeStatus.temporary
        rcases hst : (getSt σ id).status
        · decide
        · decide
        · exact absurd hst ht
      · intro hp; exact absurd hp ht
  · rw [getSt_update_ne σ targetId id _ hid]
    exact ⟨le_refl _, fun _ => rfl⟩

theorem labelsForward_finalize (σ : StMap) (u : String) :
    labelsForward σ (finalizeState σ u) := by
  intro id
  by_cases hid : id = u
  · subst hid
    rcases hlk : lookupSt σ id with _ | w
    · rw [finalizeState_of_none σ id hlk]
      exact ⟨le_refl _, fun _ => rfl⟩
    · rw [getSt_finalize_self σ id (by rw [hlk]; rfl)]
      constructor
      · show rank (getSt σ id).status ≤ rank NodeStatus.permanent
        generalize (getSt σ id).status = st
        cases st <;> decide
      · intro hp
        show { getSt σ id with status := NodeStatus.permanent } = getSt σ id
        rw [← hp]
  · rw [getSt_finalize_ne σ u id hid]
    exact ⟨le_refl _, fun _ => rfl⟩

theorem relax_chain (nodes : List Node) (u : String) :
    ∀ (σ : StMap) (perms : List String) (idx : Nat) (es : List Edge)
      (L : List (StMap × List String)),
      List.Chain progress ((relaxEdges nodes u σ perms idx es).1, perms) L →
      List.Chain progress (σ, perms)
        (((relaxEdges nodes u σ perms idx es).2.map snapPair) ++ L) := by
  intro σ perms idx es
  induction σ, perms, idx, es using relaxEdges.induct nodes u with
  | case1 σ perms idx =>
    intro L hC
    exact hC
  | case2 σ perms idx e rest targetId ht newDist currentDist hlt σ2 ih =>
    intro L hC
    have hL : relaxEdges nodes u σ perms idx (e :: rest) =
        ((relaxEdges nodes u σ2 perms (idx + 1) rest).1,
          mkStep idx (updDesc nodes u targetId currentDist newDist)
            (some u) (some e.id) σ2 perms ::
            (relaxEdges nodes u σ2 perms (idx + 1) rest).2) := by
      simp only [relaxEdges, if_pos ht, if_pos hlt]
    rw [hL] at hC ⊢
    dsimp only at hC ⊢
    simp only [List.map_cons, List.cons_append]
    refine List.Chain.cons ?_ (ih L hC)
    exact ⟨labelsForward_update σ targetId newDist (some u) ht, [],
      (List.append_nil perms).symm⟩
  | case3 σ perms idx e rest targetId ht newDist currentDist hlt ih =>
    intro L hC
    have hL : relaxEdges nodes u σ perms idx (e :: rest) =
        ((relaxEdges nodes u σ perms (idx + 1) rest).1,
          mkStep idx (noUpdDesc nodes targetId currentDist newDist)
            (some u) (some e.id) σ perms ::
            (relaxEdges nodes u σ perms (idx + 1) rest).2) := by
      simp only [relaxEdges, if_pos ht, if_neg hlt]
    rw [hL] at hC ⊢
    dsimp only at hC ⊢
    simp only [List.map_cons, List.cons_append]
    exact List.Chain.cons (progress_refl (σ, perms)) (ih L hC)
  | case4 σ perms idx e rest targetId ht ih =>
    intro L hC
    have hL : relaxEdges nodes u σ perms idx (e :: rest) =
        relaxEdges nodes u σ perms idx rest := by
      simp only [relaxEdges, if_neg ht]
    rw [hL] at hC ⊢
    exact ih L hC

theorem loop_chain (nodes : List Node) (edges : List Edge) (endNodeId : String) :
    ∀ (fuel : Nat) (σ : StMap) (perms : List String) (idx : Nat),
      List.Chain progress (σ, perms)
        ((loopRun nodes edges endNodeId fuel σ perms idx).map snapPair) := by
  intro fuel σ perms idx
  induction fuel, σ, perms, idx using loopRun.induct nodes edges endNodeId with
  | case1 σ perms idx =>
    exact List.Chain.nil
  | case2 k σ perms idx m hsel =>
    have heq : loopRun nodes edges endNodeId (k + 1) σ perms idx =
        [mkStep idx termDesc none none σ perms] := by
      simp only [loopRun, hsel]
    rw [heq]
    exact List.Chain.cons (progress_refl (σ, perms)) List.Chain.nil
  | case3 k σ perms idx u hsel =>
    have heq : loopRun nodes edges endNodeId (k + 1) σ perms idx =
        [mkStep idx termDesc none none σ perms] := by
      simp only [loopRun, hsel, if_true, eq_self_iff_true]
    rw [heq]
    exact List.Chain.cons (progress_refl (σ, perms)) List.Chain.nil
  | case4 k σ perms idx m hm hsel =>
    have heq : loopRun nodes edges endNodeId (k + 1) σ perms idx =
        [mkStep idx (finDesc nodes endNodeId (finalizeState σ endNodeId))
          (some endNodeId) none (finalizeState σ endNodeId) (perms ++ [endNodeId]),
         mkStep (idx + 1) (arrDesc nodes endNodeId) (some endNodeId) none
          (finalizeState σ endNodeId) (perms ++ [endNodeId])] := by
      simp only [loopRun, hsel, if_neg hm, if_true, eq_self_iff_true]
    rw [heq]
    refine List.Chain.cons ⟨labelsForward_finalize σ endNodeId, [endNodeId], rfl⟩ ?_
    exact List.Chain.cons (progress_refl _) List.Chain.nil
  | case5 k σ perms idx m u hsel hm σ1 perms1 hne r ih =>
    have heq : loopRun nodes edges endNodeId (k + 1) σ perms idx =
        mkStep idx (finDesc nodes u σ1) (some u) none σ1 perms1 ::
          (r.2 ++ loopRun nodes edges endNodeId k r.1 perms1 (idx + 1 + r.2.length)) := by
      simp only [loopRun, hsel, if_neg hm, if_neg hne]
    rw [heq]
    simp only [List.map_cons, List.map_append]
    refine List.Chain.cons ⟨labelsForward_finalize σ u, [u], rfl⟩ ?_
    exact relax_chain nodes u σ1 perms1 (idx + 1)
      (edges.filter (fun e => e.source = u ∨ e.target = u))
      ((loopRun nodes edges endNodeId k r.1 perms1 (idx + 1 + r.2.length)).map snapPair)
      ih

theorem trace_chain (nodes : List Node) (edges : List Edge) (s e : String) :
    List.Chain' progress ((runDoubleLabeling nodes edges s e).map snapPair) := by
  rw [runDoubleLabeling]
  simp only [List.map_cons]
  exact loop_chain nodes edges e nodes.length (initStates nodes s) [] 1

theorem trace_progress_le (nodes : List Node) (edges : List Edge) (s e : String)
    (i j : Nat) (hij : i ≤ j) (hj : j < (runDoubleLabeling nodes edges s e).length) :
    progress (snapPair (stepAt (runDoubleLabeling nodes edges s e) i))
      (snapPair (stepAt (runDoubleLabeling nodes edges s e) j)) := by
  rcases Nat.lt_or_ge i j with hlt | hge
  · have hpw := List.chain'_iff_pairwise.mp (trace_chain nodes edges s e)
    have hi : i < (runDoubleLabeling nodes edges s e).length := lt_of_le_of_lt hij hj
    have hi' : i < ((runDoubleLabeling nodes edges s e).map snapPair).length := by
      rw [List.length_map]; exact hi
    have hj' : j < ((runDoubleLabeling nodes edges s e).map snapPair).length := by
      rw [List.length_map]; exact hj
    have := List.pairwise_iff_get.mp hpw ⟨i, hi'⟩ ⟨j, hj'⟩ hlt
    simp only [List.get_eq_getElem, List.getElem_map] at this
    rw [stepAt, List.getD_eq_getElem _ emptyStep hi, stepAt,
      List.getD_eq_getElem _ emptyStep hj]
    exact this
  · have hij' : i = j := le_antisymm hij hge
    subst hij'
    exact progress_refl _

/-! ### Claim C7 -/

/-- C7: between any two snapshots of a trace (the earlier at index `i`, the
later at index `j`), every node's status only moves forward along
`unvisited → temporary → permanent`, and a node that is `permanent` at index
`i` has exactly the same label (distance, parent and status) at index `j`. -/
theorem C7_monotone_frozen :
    ∀ (nodes : List Node) (edges : List Edge) (s e : String) (i j : Nat),
      i ≤ j → j < (runDoubleLabeling nodes edges s e).length →
      ∀ id,
        rank (getSt (stepAt (runDoubleLabeling nodes edges s e) i).nodeStates id).status ≤
          rank (getSt (stepAt (runDoubleLabeling nodes edges s e) j).nodeStates id).status ∧
        ((getSt (stepAt (runDoubleLabeling nodes edges s e) i).nodeStates id).status =
            NodeStatus.permanent →
          getSt (stepAt (runDoubleLabeling nodes edges s e) j).nodeStates id =
            getSt (stepAt (runDoubleLabeling nodes edges s e) i).nodeStates id) := by
  intro nodes edges s e i j hij hj id
  exact (trace_progress_le nodes edges s e i j hij hj).1 id

/-- Witness for C7 on the example trace: node `v2` between Step 2 and the
final Step. -/
theorem C7_monotone_frozen_witness :
    rank (getSt (stepAt (runDoubleLabeling INITIAL_NODES INITIAL_EDGES "1" "6") 2).nodeStates "2").status ≤
      rank (getSt (stepAt (runDoubleLabeling INITIAL_NODES INITIAL_EDGES "1" "6") 16).nodeStates "2").status ∧
    ((getSt (stepAt (runDoubleLabeling INITIAL_NODES INITIAL_EDGES "1" "6") 2).nodeStates "2").status =
        NodeStatus.permanent →
      getSt (stepAt (runDoubleLabeling INITIAL_NODES INITIAL_EDGES "1" "6") 16).nodeStates "2" =
        getSt (stepAt (runDoubleLabeling INITIAL_NODES INITIAL_EDGES "1" "6") 2).nodeStates "2") :=
  C7_monotone_frozen INITIAL_NODES INITIAL_EDGES "1" "6" 2 16 (by decide) (by decide) "2"

/-! ### Claim C10 -/

/-- C10: in every Step of a trace, `permanentNodes` lists exactly the node
ids whose stored status is `permanent` (it is appended to in finalization
order), and the list recorded at index `i` is a prefix of the one recorded
at any later index `j`. -/
theorem C10_permanent_list :
    ∀ (nodes : List Node) (edges : List Edge) (s e : String) (i : Nat),
      i < (runDoubleLabeling nodes edges s e).length →
      (∀ id, id ∈ permsAt (runDoubleLabeling nodes edges s e) i ↔
        (getSt (stepAt (runDoubleLabeling nodes edges s e) i).nodeStates id).status =
          NodeStatus.permanent) ∧
      (∀ j, i ≤ j → j < (runDoubleLabeling nodes edges s e).length →
        ∃ t, permsAt (runDoubleLabeling nodes edges s e) j =
          permsAt (runDoubleLabeling nodes edges s e) i ++ t) := by
  intro nodes edges s e i hi
  constructor
  · intro id
    exact (trace_Gd nodes edges s e _ (stepAt_mem _ i hi)).2.1 id
  · intro j hij hj
    exact (trace_progress_le nodes edges s e i j hij hj).2

/-- Witness for C10 on the example trace at Step 1 (`v1` just finalized). -/
theorem C10_permanent_list_witness :
    ("1" ∈ permsAt (runDoubleLabeling INITIAL_NODES INITIAL_EDGES "1" "6") 1 ↔
      (getSt (stepAt (runDoubleLabeling INITIAL_NODES INITIAL_EDGES "1" "6") 1).nodeStates "1").status =
        NodeStatus.permanent) ∧
    (∃ t, permsAt (runDoubleLabeling INITIAL_NODES INITIAL_EDGES "1" "6") 4 =
      permsAt (runDoubleLabeling INITIAL_NODES INITIAL_EDGES "1" "6") 1 ++ t) :=
  ⟨(C10_permanent_list INITIAL_NODES INITIAL_EDGES "1" "6" 1 (by decide)).1 "1",
   (C10_permanent_list INITIAL_NODES INITIAL_EDGES "1" "6" 1 (by decide)).2 4
     (by decide) (by decide)⟩

/-! ### Claim C8: the classic Dijkstra frontier invariant -/

theorem DInv_init (nodes : List Node) (s : String) :
    DInv nodes (initStates nodes s) [] :=
  ⟨fun p hp => absurd hp (List.not_mem_nil p), List.Pairwise.nil,
   fun p hp => absurd hp (List.not_mem_nil p)⟩

theorem DInv_finalize (nodes : List Node) (σ : StMap) (perms : List String)
    (m : WithTop ℤ) (u : String)
    (hGd : Gd nodes σ perms) (hD : DInv nodes σ perms)
    (hsel : selectMin nodes σ = (m, some u)) :
    DInv nodes (finalizeState σ u) (perms ++ [u]) := by
  obtain ⟨hdom, hex, _, _, _⟩ := hGd
  obtain ⟨hperm, hpw, hbd⟩ := hD
  obtain ⟨n, hn, hnu, hnd, hnp⟩ := selectMin_mem nodes σ m u hsel
  have hu_some : (lookupSt σ u).isSome = true := by
    rw [← hnu]; exact hdom n hn
  have hself := getSt_finalize_self σ u hu_some
  have hu_nin : u ∉ perms := fun hmem => hnp (by rw [hnu]; exact (hex u).mp hmem)
  have hdist : ∀ id, (getSt (finalizeState σ u) id).distance = (getSt σ id).distance :=
    finalize_distance σ u
  have hstat_ne : ∀ id, id ≠ u →
      (getSt (finalizeState σ u) id).status = (getSt σ id).status := by
    intro id hid
    rw [getSt_finalize_ne σ u id hid]
  have hple : ∀ p ∈ perms, (getSt σ p).distance ≤ (getSt σ u).distance := by
    intro p hp
    have := hbd p hp n hn hnp
    rw [hnu] at this
    exact this
  refine ⟨?_, ?_, ?_⟩
  · intro p hp
    rcases List.mem_append.mp hp with h | h
    · have hpu : p ≠ u := fun hq => hu_nin (hq ▸ h)
      rw [getSt_finalize_ne σ u p hpu]
      exact hperm p h
    · rw [List.mem_singleton.mp h, hself]
  · rw [List.pairwise_append]
    refine ⟨?_, List.pairwise_singleton _ u, ?_⟩
    · exact hpw.imp (fun hab => by rw [hdist, hdist]; exact hab)
    · intro a ha b hb
      rw [List.mem_singleton.mp hb, hdist, hdist]
      exact hple a ha
  · intro p hp n' hn' hn'p
    have hn'u : n'.id ≠ u := by
      intro hq
      apply hn'p
      rw [hq, hself]
    rw [hdist, hdist]
    have hn'pσ : (getSt σ n'.id).status ≠ NodeStatus.permanent := by
      rw [← hstat_ne n'.id hn'u]
      exact hn'p
    rcases List.mem_append.mp hp with h | h
    · exact hbd p h n' hn' hn'pσ
    · rw [List.mem_singleton.mp h, ← hnu, hnd]
      exact selectMin_min nodes σ m u hsel n' hn' hn'pσ

theorem relax_DInv (nodes : List Node) (u : String) :
    ∀ (σ : StMap) (perms : List String) (idx : Nat) (es : List Edge),
      (∀ e ∈ es, 0 ≤ e.weight) →
      (getSt σ u).status = NodeStatus.permanent →
      (∀ p ∈ perms, (getSt σ p).distance ≤ (getSt σ u).distance) →
      DInv nodes σ perms →
      (DInv nodes (relaxEdges nodes u σ perms idx es).1 perms ∧
        (∀ p ∈ perms, (getSt (relaxEdges nodes u σ perms idx es).1 p).distance ≤
          (getSt (relaxEdges nodes u σ perms idx es).1 u).distance) ∧
        (getSt (relaxEdges nodes u σ perms idx es).1 u).status = NodeStatus.permanent) ∧
      ∀ st ∈ (relaxEdges nodes u σ perms idx es).2,
        List.Pairwise (fun a b => (getSt st.nodeStates a).distance ≤
          (getSt st.nodeStates b).distance) st.permanentNodes := by
  intro σ perms idx es
  induction σ, perms, idx, es using relaxEdges.induct nodes u with
  | case1 σ perms idx =>
    intro _ hu hbd hD
    exact ⟨⟨hD, hbd, hu⟩, fun st hst => absurd hst (List.not_mem_nil st)⟩
  | case2 σ perms idx e rest targetId ht newDist currentDist hlt σ2 ih =>
    intro hw hu hbd hD
    obtain ⟨hperm, hpw, hbnd⟩ := hD
    have hfwd := labelsForward_update σ targetId newDist (some u) ht
    have hfrozen : ∀ id, (getSt σ id).status = NodeStatus.permanent →
        getSt σ2 id = getSt σ id := fun id => (hfwd id).2
    have hiff : ∀ id, (getSt σ2 id).status = NodeStatus.permanent ↔
        (getSt σ id).status = NodeStatus.permanent :=
      relaxUpdate_perm_iff σ targetId _ (fun h => NodeStatus.noConfusion h) ht
    have hu2eq : getSt σ2 u = getSt σ u := hfrozen u hu
    have hw0 : (0 : WithTop ℤ) ≤ (e.weight : WithTop ℤ) := by
      rw [← WithTop.coe_zero]
      exact WithTop.coe_le_coe.mpr (hw e (List.mem_cons_self e rest))
    have hdu_le_new : (getSt σ u).distance ≤ newDist :=
      le_add_of_nonneg_right hw0
    have htdist : (getSt σ2 targetId).distance = newDist ∨
        getSt σ2 targetId = getSt σ targetId := by
      rcases hlk : lookupSt σ targetId with _ | w
      · right
        show getSt (updateSt σ targetId
          { distance := newDist, parent := some u, status := NodeStatus.temporary })
            targetId = getSt σ targetId
        rw [updateSt_of_none σ targetId _ hlk]
      · left
        show (getSt (updateSt σ targetId
          { distance := newDist, parent := some u, status := NodeStatus.temporary })
            targetId).distance = newDist
        rw [getSt_update_self σ targetId _ (by rw [hlk]; rfl)]
    have hdist2 : ∀ id, id ≠ targetId → getSt σ2 id = getSt σ id := by
      intro id hid
      exact getSt_update_ne σ targetId id _ hid
    have hD2 : DInv nodes σ2 perms := by
      refine ⟨?_, ?_, ?_⟩
      · intro p hp
        rw [hfrozen p (hperm p hp)]
        exact hperm p hp
      · refine List.Pairwise.imp_of_mem ?_ hpw
        intro a b ha hb hab
        rw [hfrozen a (hperm a ha), hfrozen b (hperm b hb)]
        exact hab
      · intro p hp n hn hnp
        rw [hfrozen p (hperm p hp)]
        have hnpσ : (getSt σ n.id).status ≠ NodeStatus.permanent := by
          intro hc
          exact hnp ((hiff n.id).mpr hc)
        by_cases hnt : n.id = targetId
        · rcases htdist with hd | hd
          · rw [hnt, hd]
            exact le_trans (hbd p hp) hdu_le_new
          · rw [hnt, hd, ← hnt]
            exact hbnd p hp n hn hnpσ
        · rw [hdist2 n.id hnt]
          exact hbnd p hp n hn hnpσ
    have hbd2 : ∀ p ∈ perms, (getSt σ2 p).distance ≤ (getSt σ2 u).distance := by
      intro p hp
      rw [hfrozen p (hperm p hp), hu2eq]
      exact hbd p hp
    have hu2 : (getSt σ2 u).status = NodeStatus.permanent := by
      rw [hu2eq]; exact hu
    have hw2 : ∀ e' ∈ rest, 0 ≤ e'.weight :=
      fun e' he' => hw e' (List.mem_cons_of_mem e he')
    obtain ⟨⟨ihD, ihbd, ihu⟩, ihsteps⟩ := ih hw2 hu2 hbd2 hD2
    have hL : relaxEdges nodes u σ perms idx (e :: rest) =
        ((relaxEdges nodes u σ2 perms (idx + 1) rest).1,
          mkStep idx (updDesc nodes u targetId currentDist newDist)
            (some u) (some e.id) σ2 perms ::
            (relaxEdges nodes u σ2 perms (idx + 1) rest).2) := by
      simp only [relaxEdges, if_pos ht, if_pos hlt]
    rw [hL]
    refine ⟨⟨ihD, ihbd, ihu⟩, ?_⟩
    intro st hst
    rcases List.mem_cons.mp hst with h | h
    · subst h
      exact hD2.2.1
    · exact ihsteps st h
  | case3 σ perms idx e rest targetId ht newDist currentDist hlt ih =>
    intro hw hu hbd hD
    have hw2 : ∀ e' ∈ rest, 0 ≤ e'.weight :=
      fun e' he' => hw e' (List.mem_cons_of_mem e he')
    obtain ⟨⟨ihD, ihbd, ihu⟩, ihsteps⟩ := ih hw2 hu hbd hD
    have hL : relaxEdges nodes u σ perms idx (e :: rest) =
        ((relaxEdges nodes u σ perms (idx + 1) rest).1,
          mkStep idx (noUpdDesc nodes targetId currentDist newDist)
            (some u) (some e.id) σ perms ::
            (relaxEdges nodes u σ perms (idx + 1) rest).2) := by
      simp only [relaxEdges, if_pos ht, if_neg hlt]
    rw [hL]
    refine ⟨⟨ihD, ihbd, ihu⟩, ?_⟩
    intro st hst
    rcases List.mem_cons.mp hst with h | h
    · subst h
      exact hD.2.1
    · exact ihsteps st h
  | case4 σ perms idx e rest targetId ht ih =>
    intro hw hu hbd hD
    have hw2 : ∀ e' ∈ rest, 0 ≤ e'.weight :=
      fun e' he' => hw e' (List.mem_cons_of_mem e he')
    have hL : relaxEdges nodes u σ perms idx (e :: rest) =
        relaxEdges nodes u σ perms idx rest := by
      simp only [relaxEdges, if_neg ht]
    rw [hL]
    exact ih hw2 hu hbd hD

theorem loop_DInv (nodes : List Node) (edges : List Edge) (endNodeId : String) :
    ∀ (fuel : Nat) (σ : StMap) (perms : List String) (idx : Nat),
      (∀ e ∈ edges, 0 ≤ e.weight) →
      Gd nodes σ perms →
      DInv nodes σ perms →
      ∀ st ∈ loopRun nodes edges endNodeId fuel σ perms idx,
        List.Pairwise (fun a b => (getSt st.nodeStates a).distance ≤
          (getSt st.nodeStates b).distance) st.permanentNodes := by
  intro fuel σ perms idx
  induction fuel, σ, perms, idx using loopRun.induct nodes edges endNodeId with
  | case1 σ perms idx =>
    intro _ _ _ st hst
    exact absurd hst (List.not_mem_nil st)
  | case2 k σ perms idx m hsel =>
    intro _ _ hD st hst
    have heq : loopRun nodes edges endNodeId (k + 1) σ perms idx =
        [mkStep idx termDesc none none σ perms] := by
      simp only [loopRun, hsel]
    rw [heq] at hst
    rw [List.mem_singleton.mp hst]
    exact hD.2.1
  | case3 k σ perms idx u hsel =>
    intro _ _ hD st hst
    have heq : loopRun nodes edges endNodeId (k + 1) σ perms idx =
        [mkStep idx termDesc none none σ perms] := by
      simp only [loopRun, hsel, if_true, eq_self_iff_true]
    rw [heq] at hst
    rw [List.mem_singleton.mp hst]
    exact hD.2.1
  | case4 k σ perms idx m hm hsel =>
    intro hw hGd hD st hst
    have hD1 := DInv_finalize nodes σ perms m endNodeId hGd hD hsel
    have heq : loopRun nodes edges endNodeId (k + 1) σ perms idx =
        [mkStep idx (finDesc nodes endNodeId (finalizeState σ endNodeId))
          (some endNodeId) none (finalizeState σ endNodeId) (perms ++ [endNodeId]),
         mkStep (idx + 1) (arrDesc nodes endNodeId) (some endNodeId) none
          (finalizeState σ endNodeId) (perms ++ [endNodeId])] := by
      simp only [loopRun, hsel, if_neg hm, if_true, eq_self_iff_true]
    rw [heq] at hst
    rcases List.mem_cons.mp hst with h | h
    · rw [h]
      exact hD1.2.1
    · rw [List.mem_singleton.mp h]
      exact hD1.2.1
  | case5 k σ perms idx m u hsel hm σ1 perms1 hne r ih =>
    intro hw hGd hD st hst
    have hGd1 : Gd nodes σ1 perms1 := Gd_finalize nodes σ perms m u hGd hsel
    have hD1 : DInv nodes σ1 perms1 := DInv_finalize nodes σ perms m u hGd hD hsel
    have hu1 : (getSt σ1 u).status = NodeStatus.permanent :=
      hD1.1 u (List.mem_append_right perms (List.mem_singleton.mpr rfl))
    have hbd1 : ∀ p ∈ perms1, (getSt σ1 p).distance ≤ (getSt σ1 u).distance := by
      intro p hp
      rcases List.mem_append.mp hp with h | h
      · exact (List.pairwise_append.mp hD1.2.1).2.2 p h u (List.mem_singleton.mpr rfl)
      · rw [List.mem_singleton.mp h]
    have hwf : ∀ e ∈ edges.filter (fun e => e.source = u ∨ e.target = u), 0 ≤ e.weight :=
      fun e he => hw e (List.mem_of_mem_filter he)
    obtain ⟨⟨rD, rbd, ru⟩, rsteps⟩ := relax_DInv nodes u σ1 perms1 (idx + 1)
      (edges.filter (fun e => e.source = u ∨ e.target = u)) hwf hu1 hbd1 hD1
    have hGd2 : Gd nodes r.1 perms1 :=
      (relax_Gd nodes u σ1 perms1 (idx + 1)
        (List.filter (fun e => decide (e.source = u ∨ e.target = u)) edges) hGd1).1
    have heq : loopRun nodes edges endNodeId (k + 1) σ perms idx =
        mkStep idx (finDesc nodes u σ1) (some u) none σ1 perms1 ::
          (r.2 ++ loopRun nodes edges endNodeId k r.1 perms1 (idx + 1 + r.2.length)) := by
      simp only [loopRun, hsel, if_neg hm, if_neg hne]
    rw [heq] at hst
    rcases List.mem_cons.mp hst with h | h
    · rw [h]
      exact hD1.2.1
    · rcases List.mem_append.mp h with h2 | h2
      · exact rsteps st h2
      · exact ih hw hGd2 rD st h2

/-- C8: given non-negative edge weights, the recorded permanent-node list of
every Step has non-decreasing stored distances along finalization order: if
`u` was finalized before `v` then `u`'s (frozen) distance is at most `v`'s. -/
theorem C8_finalization_monotone :
    ∀ (nodes : List Node) (edges : List Edge) (s e : String),
      (∀ ed ∈ edges, 0 ≤ ed.weight) →
      ∀ i, i < (runDoubleLabeling nodes edges s e).length →
        List.Pairwise (fun a b =>
          (getSt (stepAt (runDoubleLabeling nodes edges s e) i).nodeStates a).distance ≤
            (getSt (stepAt (runDoubleLabeling nodes edges s e) i).nodeStates b).distance)
          (permsAt (runDoubleLabeling nodes edges s e) i) := by
  intro nodes edges s e hw i hi
  simp only [permsAt]
  have hsplit : runDoubleLabeling nodes edges s e =
      mkStep 0 initDesc none none (initStates nodes s) [] ::
        loopRun nodes edges e nodes.length (initStates nodes s) [] 1 := rfl
  have hmem := stepAt_mem _ i hi
  rw [hsplit] at hmem ⊢
  rcases List.mem_cons.mp hmem with h | h
  · rw [h]
    exact List.Pairwise.nil
  · exact loop_DInv nodes edges e nodes.length (initStates nodes s) [] 1 hw
      (Gd_init nodes s) (DInv_init nodes s) _ h

/-- Witness for C8 at the final Step of the example trace. -/
theorem C8_finalization_monotone_witness :
    List.Pairwise (fun a b =>
      (getSt (stepAt (runDoubleLabeling INITIAL_NODES INITIAL_EDGES "1" "6") 16).nodeStates a).distance ≤
        (getSt (stepAt (runDoubleLabeling INITIAL_NODES INITIAL_EDGES "1" "6") 16).nodeStates b).distance)
      (permsAt (runDoubleLabeling INITIAL_NODES INITIAL_EDGES "1" "6") 16) :=
  C8_finalization_monotone INITIAL_NODES INITIAL_EDGES "1" "6" (by decide) 16 (by decide)

/-! ### Claim C9 -/

theorem relax_len (nodes : List Node) (u : String) :
    ∀ (σ : StMap) (perms : List String) (idx : Nat) (es : List Edge),
      (relaxEdges nodes u σ perms idx es).2.length ≤ es.length := by
  intro σ perms idx es
  induction σ, perms, idx, es using relaxEdges.induct nodes u with
  | case1 σ perms idx =>
    exact Nat.le_refl 0
  | case2 σ perms idx e rest targetId ht newDist currentDist hlt σ2 ih =>
    have hL : relaxEdges nodes u σ perms idx (e :: rest) =
        ((relaxEdges nodes u σ2 perms (idx + 1) rest).1,
          mkStep idx (updDesc nodes u targetId currentDist newDist)
            (some u) (some e.id) σ2 perms ::
            (relaxEdges nodes u σ2 perms (idx + 1) rest).2) := by
      simp only [relaxEdges, if_pos ht, if_pos hlt]
    rw [hL]
    exact Nat.succ_le_succ ih
  | case3 σ perms idx e rest targetId ht newDist currentDist hlt ih =>
    have hL : relaxEdges nodes u σ perms idx (e :: rest) =
        ((relaxEdges nodes u σ perms (idx + 1) rest).1,
          mkStep idx (noUpdDesc nodes targetId currentDist newDist)
            (some u) (some e.id) σ perms ::
            (relaxEdges nodes u σ perms (idx + 1) rest).2) := by
      simp only [relaxEdges, if_pos ht, if_neg hlt]
    rw [hL]
    exact Nat.succ_le_succ ih
  | case4 σ perms idx e rest targetId ht ih =>
    have hL : relaxEdges nodes u σ perms idx (e :: rest) =
        relaxEdges nodes u σ perms idx rest := by
      simp only [relaxEdges, if_neg ht]
    rw [hL]
    exact Nat.le_succ_of_le ih

theorem loop_len (nodes : List Node) (edges : List Edge) (endNodeId : String) :
    ∀ (fuel : Nat) (σ : StMap) (perms : List String) (idx : Nat),
      (loopRun nodes edges endNodeId fuel σ perms idx).length ≤
        fuel * (2 + edges.length) + 1 := by
  intro fuel σ perms idx
  induction fuel, σ, perms, idx using loopRun.induct nodes edges endNodeId with
  | case1 σ perms idx =>
    exact Nat.zero_le _
  | case2 k σ perms idx m hsel =>
    have heq : loopRun nodes edges endNodeId (k + 1) σ perms idx =
        [mkStep idx termDesc none none σ perms] := by
      simp only [loopRun, hsel]
    rw [heq]
    exact Nat.succ_le_succ (Nat.zero_le _)
  | case3 k σ perms idx u hsel =>
    have heq : loopRun nodes edges endNodeId (k + 1) σ perms idx =
        [mkStep idx termDesc none none σ perms] := by
      simp only [loopRun, hsel, if_true, eq_self_iff_true]
    rw [heq]
    exact Nat.succ_le_succ (Nat.zero_le _)
  | case4 k σ perms idx m hm hsel =>
    have heq : loopRun nodes edges endNodeId (k + 1) σ perms idx =
        [mkStep idx (finDesc nodes endNodeId (finalizeState σ endNodeId))
          (some endNodeId) none (finalizeState σ endNodeId) (perms ++ [endNodeId]),
         mkStep (idx + 1) (arrDesc nodes endNodeId) (some endNodeId) none
          (finalizeState σ endNodeId) (perms ++ [endNodeId])] := by
      simp only [loopRun, hsel, if_neg hm, if_true, eq_self_iff_true]
    rw [heq]
    show 2 ≤ (k + 1) * (2 + edges.length) + 1
    have h1 : 2 + edges.length ≤ (k + 1) * (2 + edges.length) :=
      Nat.le_mul_of_pos_left (2 + edges.length) (Nat.succ_pos k)
    omega
  | case5 k σ perms idx m u hsel hm σ1 perms1 hne r ih =>
    have heq : loopRun nodes edges endNodeId (k + 1) σ perms idx =
        mkStep idx (finDesc nodes u σ1) (some u) none σ1 perms1 ::
          (r.2 ++ loopRun nodes edges endNodeId k r.1 perms1 (idx + 1 + r.2.length)) := by
      simp only [loopRun, hsel, if_neg hm, if_neg hne]
    rw [heq]
    rw [List.length_cons, List.length_append]
    have hr : r.2.length ≤ edges.length :=
      le_trans (relax_len nodes u σ1 perms1 (idx + 1) _)
        (List.length_filter_le _ edges)
    rw [Nat.succ_mul]
    omega

/-- C9: the engine always terminates with a finite trace: the trace length is
bounded by `2 + |nodes| * (2 + |edges|)` (each of the at most `|nodes|` loop
iterations emits a finalization Step, at most one arrival Step, and at most
`|edges|` relaxation Steps, plus the initialization and terminal Steps), and
every Step's permanent list — one entry per finalized node — has at most
`|nodes|` entries. -/
theorem C9_termination_bound :
    ∀ (nodes : List Node) (edges : List Edge) (s e : String),
      (runDoubleLabeling nodes edges s e).length ≤
        2 + nodes.length * (2 + edges.length) ∧
      ∀ i, i < (runDoubleLabeling nodes edges s e).length →
        (permsAt (runDoubleLabeling nodes edges s e) i).length ≤ nodes.length := by
  intro nodes edges s e
  constructor
  · rw [runDoubleLabeling]
    rw [List.length_cons]
    have := loop_len nodes edges e nodes.length (initStates nodes s) [] 1
    omega
  · intro i hi
    have hGd := trace_Gd nodes edges s e _ (stepAt_mem _ i hi)
    have hnd := hGd.2.2.2.1
    have hsub := hGd.2.2.2.2
    calc (permsAt (runDoubleLabeling nodes edges s e) i).length
        = (permsAt (runDoubleLabeling nodes edges s e) i).toFinset.card :=
          (List.toFinset_card_of_nodup hnd).symm
      _ ≤ (nodes.map Node.id).toFinset.card := by
          apply Finset.card_le_card
          intro a ha
          rw [List.mem_toFinset] at ha ⊢
          exact hsub a ha
      _ ≤ (nodes.map Node.id).length := List.toFinset_card_le _
      _ = nodes.length := List.length_map nodes Node.id

/-- Witness for C9 at the example graph: bound on the trace length and on the
final Step's permanent list. -/
theorem C9_termination_bound_witness :
    (runDoubleLabeling INITIAL_NODES INITIAL_EDGES "1" "6").length ≤
      2 + INITIAL_NODES.length * (2 + INITIAL_EDGES.length) ∧
    (permsAt (runDoubleLabeling INITIAL_NODES INITIAL_EDGES "1" "6") 16).length ≤
      INITIAL_NODES.length :=
  ⟨(C9_termination_bound INITIAL_NODES INITIAL_EDGES "1" "6").1,
   (C9_termination_bound INITIAL_NODES INITIAL_EDGES "1" "6").2 16 (by decide)⟩

/-! ### Claim C6: early exit once the end node is finalized -/

theorem stepAt_nil (i : Nat) : stepAt [] i = emptyStep := rfl

theorem stepAt_cons_succ (a : AlgorithmStep) (l : List AlgorithmStep) (i : Nat) :
    stepAt (a :: l) (i + 1) = stepAt l i := rfl

theorem stepAt_append_left (l1 l2 : List AlgorithmStep) (i : Nat) (h : i < l1.length) :
    stepAt (l1 ++ l2) i = stepAt l1 i :=
  List.getD_append l1 l2 emptyStep i h

theorem stepAt_append_right (l1 l2 : List AlgorithmStep) (i : Nat) (h : l1.length ≤ i) :
    stepAt (l1 ++ l2) i = stepAt l2 (i - l1.length) :=
  List.getD_append_right l1 l2 emptyStep i h

theorem relax_perms (nodes : List Node) (u : String) :
    ∀ (σ : StMap) (perms : List String) (idx : Nat) (es : List Edge),
      ∀ st ∈ (relaxEdges nodes u σ perms idx es).2, st.permanentNodes = perms := by
  intro σ perms idx es
  induction σ, perms, idx, es using relaxEdges.induct nodes u with
  | case1 σ perms idx =>
    intro st hst
    exact absurd hst (List.not_mem_nil st)
  | case2 σ perms idx e rest targetId ht newDist currentDist hlt σ2 ih =>
    intro st hst
    have hL : relaxEdges nodes u σ perms idx (e :: rest) =
        ((relaxEdges nodes u σ2 perms (idx + 1) rest).1,
          mkStep idx (updDesc nodes u targetId currentDist newDist)
            (some u) (some e.id) σ2 perms ::
            (relaxEdges nodes u σ2 perms (idx + 1) rest).2) := by
      simp only [relaxEdges, if_pos ht, if_pos hlt]
    rw [hL] at hst
    rcases List.mem_cons.mp hst with h | h
    · rw [h]
      rfl
    · exact ih st h
  | case3 σ perms idx e rest targetId ht newDist currentDist hlt ih =>
    intro st hst
    have hL : relaxEdges nodes u σ perms idx (e :: rest) =
        ((relaxEdges nodes u σ perms (idx + 1) rest).1,
          mkStep idx (noUpdDesc nodes targetId currentDist newDist)
            (some u) (some e.id) σ perms ::
            (relaxEdges nodes u σ perms (idx + 1) rest).2) := by
      simp only [relaxEdges, if_pos ht, if_neg hlt]
    rw [hL] at hst
    rcases List.mem_cons.mp hst with h | h
    · rw [h]
      rfl
    · exact ih st h
  | case4 σ perms idx e rest targetId ht ih =>
    intro st hst
    have hL : relaxEdges nodes u σ perms idx (e :: rest) =
        relaxEdges nodes u σ perms idx rest := by
      simp only [relaxEdges, if_neg ht]
    rw [hL] at hst
    exact ih st hst

theorem loop_early (nodes : List Node) (edges : List Edge) (endNodeId : String) :
    ∀ (fuel : Nat) (σ : StMap) (perms : List String) (idx : Nat),
      endNodeId ∉ perms →
      ∀ i, endNodeId ∈ permsAt (loopRun nodes edges endNodeId fuel σ perms idx) i →
        (i = 0 ∨
          endNodeId ∉ permsAt (loopRun nodes edges endNodeId fuel σ perms idx) (i - 1)) →
        (loopRun nodes edges endNodeId fuel σ perms idx).length = i + 2 ∧
        permsAt (loopRun nodes edges endNodeId fuel σ perms idx) (i + 1) =
          permsAt (loopRun nodes edges endNodeId fuel σ perms idx) i ∧
        (stepAt (loopRun nodes edges endNodeId fuel σ perms idx) (i + 1)).activeNodeId =
          some endNodeId ∧
        (stepAt (loopRun nodes edges endNodeId fuel σ perms idx) (i + 1)).checkingEdgeId =
          none ∧
        (stepAt (loopRun nodes edges endNodeId fuel σ perms idx) (i + 1)).description =
          arrDesc nodes endNodeId := by
  intro fuel σ perms idx
  induction fuel, σ, perms, idx using loopRun.induct nodes edges endNodeId with
  | case1 σ perms idx =>
    intro _ i hi _
    exact absurd hi (List.not_mem_nil endNodeId)
  | case2 k σ perms idx m hsel =>
    intro hnp i hi _
    have heq : loopRun nodes edges endNodeId (k + 1) σ perms idx =
        [mkStep idx termDesc none none σ perms] := by
      simp only [loopRun, hsel]
    rw [heq] at hi
    exfalso
    cases i with
    | zero => exact hnp hi
    | succ j => exact absurd hi (List.not_mem_nil endNodeId)
  | case3 k σ perms idx u hsel =>
    intro hnp i hi _
    have heq : loopRun nodes edges endNodeId (k + 1) σ perms idx =
        [mkStep idx termDesc none none σ perms] := by
      simp only [loopRun, hsel, if_true, eq_self_iff_true]
    rw [heq] at hi
    exfalso
    cases i with
    | zero => exact hnp hi
    | succ j => exact absurd hi (List.not_mem_nil endNodeId)
  | case4 k σ perms idx m hm hsel =>
    intro hnp i hi hprev
    have heq : loopRun nodes edges endNodeId (k + 1) σ perms idx =
        [mkStep idx (finDesc nodes endNodeId (finalizeState σ endNodeId))
          (some endNodeId) none (finalizeState σ endNodeId) (perms ++ [endNodeId]),
         mkStep (idx + 1) (arrDesc nodes endNodeId) (some endNodeId) none
          (finalizeState σ endNodeId) (perms ++ [endNodeId])] := by
      simp only [loopRun, hsel, if_neg hm, if_true, eq_self_iff_true]
    rw [heq] at hi hprev ⊢
    match i with
    | 0 => exact ⟨rfl, rfl, rfl, rfl, rfl⟩
    | 1 =>
      exfalso
      rcases hprev with h0 | hnotin
      · exact Nat.noConfusion h0
      · exact hnotin (List.mem_append_right perms (List.mem_singleton.mpr rfl))
    | (j + 2) => exact absurd hi (List.not_mem_nil endNodeId)
  | case5 k σ perms idx m u hsel hm σ1 perms1 hne r ih =>
    intro hnp i hi hprev
    have hnp1 : endNodeId ∉ perms1 := by
      intro hc
      rcases List.mem_append.mp hc with h | h
      · exact hnp h
      · exact hne (List.mem_singleton.mp h).symm
    have heq : loopRun nodes edges endNodeId (k + 1) σ perms idx =
        mkStep idx (finDesc nodes u σ1) (some u) none σ1 perms1 ::
          (r.2 ++ loopRun nodes edges endNodeId k r.1 perms1 (idx + 1 + r.2.length)) := by
      simp only [loopRun, hsel, if_neg hm, if_neg hne]
    have hrelperms : ∀ st ∈ r.2, st.permanentNodes = perms1 :=
      relax_perms nodes u σ1 perms1 (idx + 1) _
    have hwithin : ∀ j, j ≤ r.2.length →
        permsAt (mkStep idx (finDesc nodes u σ1) (some u) none σ1 perms1 ::
          (r.2 ++ loopRun nodes edges endNodeId k r.1 perms1 (idx + 1 + r.2.length))) j =
        perms1 := by
      intro j hj
      cases j with
      | zero => rfl
      | succ jj =>
        have hjj : jj < r.2.length := Nat.lt_of_succ_le hj
        show (stepAt (mkStep idx (finDesc nodes u σ1) (some u) none σ1 perms1 ::
          (r.2 ++ loopRun nodes edges endNodeId k r.1 perms1 (idx + 1 + r.2.length)))
            (jj + 1)).permanentNodes = perms1
        rw [stepAt_cons_succ, stepAt_append_left _ _ jj hjj]
        exact hrelperms _ (stepAt_mem r.2 jj hjj)
    have htrans : ∀ j,
        stepAt (mkStep idx (finDesc nodes u σ1) (some u) none σ1 perms1 ::
          (r.2 ++ loopRun nodes edges endNodeId k r.1 perms1 (idx + 1 + r.2.length)))
            (r.2.length + 1 + j) =
        stepAt (loopRun nodes edges endNodeId k r.1 perms1 (idx + 1 + r.2.length)) j := by
      intro j
      have harith : r.2.length + 1 + j = (r.2.length + j) + 1 := by omega
      rw [harith, stepAt_cons_succ,
        stepAt_append_right _ _ (r.2.length + j) (Nat.le_add_right _ _)]
      congr 1
      omega
    rw [heq] at hi hprev ⊢
    by_cases hle : i ≤ r.2.length
    · exfalso
      rw [hwithin i hle] at hi
      exact hnp1 hi
    · have hgt : r.2.length < i := lt_of_not_le hle
      obtain ⟨i', hi'⟩ : ∃ i', i = r.2.length + 1 + i' :=
        ⟨i - (r.2.length + 1), by omega⟩
      subst hi'
      have hi2 : endNodeId ∈
          permsAt (loopRun nodes edges endNodeId k r.1 perms1 (idx + 1 + r.2.length)) i' := by
        have := htrans i'
        rw [permsAt, this] at hi
        exact hi
      have hprev2 : i' = 0 ∨ endNodeId ∉
          permsAt (loopRun nodes edges endNodeId k r.1 perms1 (idx + 1 + r.2.length))
            (i' - 1) := by
        cases i' with
        | zero => exact Or.inl rfl
        | succ ii =>
          right
          rcases hprev with h0 | hnotin
          · exact absurd h0 (by omega)
          · have harith : r.2.length + 1 + (ii + 1) - 1 = r.2.length + 1 + ii := by omega
            rw [harith] at hnotin
            rw [permsAt, htrans ii] at hnotin
            exact hnotin
      obtain ⟨hlen, hperms, hact, hchk, hdesc⟩ := ih hnp1 i' hi2 hprev2
      have harith1 : r.2.length + 1 + i' + 1 = r.2.length + 1 + (i' + 1) := by omega
      refine ⟨?_, ?_, ?_, ?_, ?_⟩
      · rw [List.length_cons, List.length_append, hlen]
        omega
      · rw [permsAt, permsAt, harith1, htrans (i' + 1), htrans i']
        exact hperms
      · rw [harith1, htrans (i' + 1)]
        exact hact
      · rw [harith1, htrans (i' + 1)]
        exact hchk
      · rw [harith1, htrans (i' + 1)]
        exact hdesc

/-- C6: if the end node first appears in the permanent list at Step `k` (it
is in Step `k`'s list and not in Step `k-1`'s), the trace has exactly `k + 2`
Steps: one further Step follows, it announces arrival at the end node
(active node = end, no edge being checked, the arrival description), and its
permanent list equals Step `k`'s — so no node is finalized and no relaxation
Step is emitted after Step `k`. -/
theorem C6_early_exit :
    ∀ (nodes : List Node) (edges : List Edge) (s endId : String) (k : Nat),
      endId ∈ permsAt (runDoubleLabeling nodes edges s endId) k →
      endId ∉ permsAt (runDoubleLabeling nodes edges s endId) (k - 1) →
      (runDoubleLabeling nodes edges s endId).length = k + 2 ∧
      permsAt (runDoubleLabeling nodes edges s endId) (k + 1) =
        permsAt (runDoubleLabeling nodes edges s endId) k ∧
      (stepAt (runDoubleLabeling nodes edges s endId) (k + 1)).activeNodeId = some endId ∧
      (stepAt (runDoubleLabeling nodes edges s endId) (k + 1)).checkingEdgeId = none ∧
      (stepAt (runDoubleLabeling nodes edges s endId) (k + 1)).description =
        arrDesc nodes endId := by
  intro nodes edges s endId k hk hkprev
  have hsplit : runDoubleLabeling nodes edges s endId =
      mkStep 0 initDesc none none (initStates nodes s) [] ::
        loopRun nodes edges endId nodes.length (initStates nodes s) [] 1 := rfl
  rw [hsplit] at hk hkprev ⊢
  cases k with
  | zero => exact absurd hk (List.not_mem_nil endId)
  | succ j =>
    have hk2 : endId ∈
        permsAt (loopRun nodes edges endId nodes.length (initStates nodes s) [] 1) j := by
      rw [permsAt, stepAt_cons_succ] at hk
      exact hk
    have hprev2 : j = 0 ∨ endId ∉
        permsAt (loopRun nodes edges endId nodes.length (initStates nodes s) [] 1)
          (j - 1) := by
      cases j with
      | zero => exact Or.inl rfl
      | succ jj =>
        right
        have harith : jj + 1 + 1 - 1 = jj + 1 := rfl
        rw [harith, permsAt, stepAt_cons_succ] at hkprev
        exact hkprev
    obtain ⟨hlen, hperms, hact, hchk, hdesc⟩ :=
      loop_early nodes edges endId nodes.length (initStates nodes s) [] 1
        (List.not_mem_nil endId) j hk2 hprev2
    refine ⟨?_, ?_, ?_, ?_, ?_⟩
    · rw [List.length_cons, hlen]
    · rw [permsAt, permsAt, stepAt_cons_succ, stepAt_cons_succ]
      exact hperms
    · rw [stepAt_cons_succ]
      exact hact
    · rw [stepAt_cons_succ]
      exact hchk
    · rw [stepAt_cons_succ]
      exact hdesc

/-- Witness for C6 on the example trace: `v6` is finalized at Step 15 and the
trace ends with the arrival Step 16. -/
theorem C6_early_exit_witness :
    (runDoubleLabeling INITIAL_NODES INITIAL_EDGES "1" "6").length = 15 + 2 ∧
    permsAt (runDoubleLabeling INITIAL_NODES INITIAL_EDGES "1" "6") (15 + 1) =
      permsAt (runDoubleLabeling INITIAL_NODES INITIAL_EDGES "1" "6") 15 ∧
    (stepAt (runDoubleLabeling INITIAL_NODES INITIAL_EDGES "1" "6") (15 + 1)).activeNodeId =
      some "6" ∧
    (stepAt (runDoubleLabeling INITIAL_NODES INITIAL_EDGES "1" "6") (15 + 1)).checkingEdgeId =
      none ∧
    (stepAt (runDoubleLabeling INITIAL_NODES INITIAL_EDGES "1" "6") (15 + 1)).description =
      arrDesc INITIAL_NODES "6" :=
  C6_early_exit INITIAL_NODES INITIAL_EDGES "1" "6" 15 (by decide) (by decide)

end SPV
